import Mathlib

/-!
Shallow embedding of the `advent-of-code-2024` repository (Rust) in Lean 4,
together with theorems settling the frozen claims about its specification.

Conventions:
* Rust `i32` is modelled as `ℤ`; the `usize as i32` cast is modelled exactly,
  including its wrap-around (`usizeToI32`).
* Rust `u32` is modelled as `ℕ` with explicit `% 2^32` where a shift can
  overflow the 32-bit width.
* Panics (`panic!`, `expect`, `unwrap`) are modelled as `Except.error`.
* `HashSet`/`HashMap` values are modelled as lists/finsets/functions; where the
  source iterates a hash container in unspecified order, the iteration order is
  made an explicit parameter so that order-independence can be stated.
-/

namespace AoC

/-! ## `utils/map2d`: positions, directions, bounds -/

/-- `Position(pub i32, pub i32)` from `utils/map2d/position.rs`. -/
structure Position where
  x : ℤ
  y : ℤ
deriving DecidableEq, Repr

/-- `Direction` enum from `utils/map2d/direction.rs`. -/
inductive Direction where
  | UP
  | RIGHT
  | DOWN
  | LEFT
deriving DecidableEq, Repr

namespace Direction

/-- `Direction::turned_right`. -/
def turned_right : Direction → Direction
  | UP => RIGHT
  | RIGHT => DOWN
  | DOWN => LEFT
  | LEFT => UP

/-- `Direction::turned_left`. -/
def turned_left : Direction → Direction
  | UP => LEFT
  | LEFT => DOWN
  | DOWN => RIGHT
  | RIGHT => UP

/-- `Direction::turned_around`. -/
def turned_around : Direction → Direction
  | UP => DOWN
  | RIGHT => LEFT
  | DOWN => UP
  | LEFT => RIGHT

/-- `impl From<char> for Direction`: panics (modelled as `Except.error`) on any
character other than the four arrow characters. -/
def fromChar (character : Char) : Except String Direction :=
  match character with
  | '^' => .ok UP
  | '>' => .ok RIGHT
  | 'v' => .ok DOWN
  | '<' => .ok LEFT
  | _ => .error "Invalid character specified to create Direction."

end Direction

namespace Position

/-- `Position::step` from `utils/map2d/direction.rs`. -/
def step (p : Position) (direction : Direction) : Position :=
  match direction with
  | .UP => ⟨p.x, p.y - 1⟩
  | .RIGHT => ⟨p.x + 1, p.y⟩
  | .DOWN => ⟨p.x, p.y + 1⟩
  | .LEFT => ⟨p.x - 1, p.y⟩

/-- `Position::neighbours` from `utils/map2d/position.rs`. -/
def neighbours (p : Position) : List Position :=
  [⟨p.x + 1, p.y⟩, ⟨p.x - 1, p.y⟩, ⟨p.x, p.y + 1⟩, ⟨p.x, p.y - 1⟩]

end Position

/-- `Bounds(pub usize, pub usize)` from `utils/map2d/grid.rs`. -/
structure Bounds where
  fst : ℕ
  snd : ℕ
deriving DecidableEq, Repr

/-- `ValidPosition(pub usize, pub usize)` from `utils/map2d/grid.rs`. -/
structure ValidPosition where
  x : ℕ
  y : ℕ
deriving DecidableEq, Repr

/-- The Rust cast `usize as i32`: truncation to 32 bits, reinterpreted as a
signed 32-bit value. -/
def usizeToI32 (n : ℕ) : ℤ :=
  if n % 2 ^ 32 < 2 ^ 31 then (n % 2 ^ 32 : ℤ) else (n % 2 ^ 32 : ℤ) - 2 ^ 32

/-- `ValidPosition -> Position` (`impl Into<Position> for ValidPosition`):
`Position(self.0 as i32, self.1 as i32)`, with the `usize as i32` casts
modelled exactly (they wrap for coordinates at or above `2 ^ 31`). -/
def ValidPosition.toPosition (vp : ValidPosition) : Position :=
  ⟨usizeToI32 vp.x, usizeToI32 vp.y⟩

/-- `Position::in_bounds` from `utils/map2d/grid.rs`, with the
`bounds.0 as i32` / `bounds.1 as i32` casts modelled exactly. -/
def Position.in_bounds (p : Position) (bounds : Bounds) : Option ValidPosition :=
  if 0 ≤ p.x ∧ 0 ≤ p.y ∧ p.x < usizeToI32 bounds.fst ∧ p.y < usizeToI32 bounds.snd then
    some ⟨p.x.toNat, p.y.toNat⟩
  else
    none

/-- `Position::valid_neighbours` from `utils/map2d/grid.rs` (the source collects
into a `HashSet`; the four candidate neighbours are pairwise distinct, so a list
in the order produced by `Position::neighbours` carries the same members). -/
def Position.valid_neighbours (p : Position) (bounds : Bounds) : List ValidPosition :=
  p.neighbours.filterMap (fun neib => neib.in_bounds bounds)

/-- `ValidPosition::valid_neighbours` from `utils/map2d/grid.rs`. -/
def ValidPosition.valid_neighbours (vp : ValidPosition) (bounds : Bounds) : List ValidPosition :=
  vp.toPosition.valid_neighbours bounds

/-- `ValidPosition::try_step` from `utils/map2d/grid.rs`. -/
def ValidPosition.try_step (vp : ValidPosition) (direction : Direction) (bounds : Bounds) :
    Option ValidPosition :=
  (vp.toPosition.step direction).in_bounds bounds

/-! ## `day22.rs`: secret-number PRNG -/

/-- `PRUNE_MASK: u32 = 0b111111111111111111111111` (24 one bits). -/
def PRUNE_MASK : ℕ := 0b111111111111111111111111

/-- `next_secret` from `day22.rs`; `u32` shifts are modelled with an explicit
`% 2 ^ 32` truncation. -/
def next_secret (secret : ℕ) : ℕ :=
  let s1 := (secret ^^^ (secret <<< 6) % 2 ^ 32) &&& PRUNE_MASK
  let s2 := s1 ^^^ (s1 >>> 5)
  (s2 ^^^ (s2 <<< 11) % 2 ^ 32) &&& PRUNE_MASK

/-- `next_secret` re-read with unbounded (mathematical) shift arithmetic: the
reference against which the `u32` truncations are compared. -/
def next_secret_unbounded (secret : ℕ) : ℕ :=
  let s1 := (secret ^^^ secret <<< 6) &&& PRUNE_MASK
  let s2 := s1 ^^^ (s1 >>> 5)
  (s2 ^^^ s2 <<< 11) &&& PRUNE_MASK

/-! ## `utils/map2d/grid.rs`: the grid and its flood fill -/

/-- `Grid<T>` from `utils/map2d/grid.rs`. -/
structure Grid (α : Type) where
  data : List (List α)
  bounds : Bounds

/-- `Grid::value`: `self.data[pos.1][pos.0]`.  Rust panics on an out-of-range
index; the model totalises with a default element, and the safety claims state
that the indices are in range. -/
def Grid.value [Inhabited α] (g : Grid α) (pos : ValidPosition) : α :=
  (g.data.getD pos.y []).getD pos.x default

/-- The neighbours that `Grid::contiguous_region` pushes onto its queue from a
cell: valid neighbours whose value equals the target value. -/
def Grid.regionNeighbours [Inhabited α] [DecidableEq α] (g : Grid α) (target : α)
    (p : ValidPosition) : List ValidPosition :=
  (p.valid_neighbours g.bounds).filter (fun neib => g.value neib = target)

/-- The `while let Some(next_pos) = to_visit.pop_front()` loop of
`Grid::contiguous_region`, with an explicit fuel (the loop terminates because
`visited` only grows inside the bounded grid; `contiguous_region` supplies
enough fuel, and the theorems show the result is fuel-independent). -/
def Grid.bfsAux [Inhabited α] [DecidableEq α] (g : Grid α) (target : α) :
    ℕ → Finset ValidPosition → List ValidPosition → Finset ValidPosition
  | 0, visited, _ => visited
  | _ + 1, visited, [] => visited
  | fuel + 1, visited, next_pos :: rest =>
    if next_pos ∈ visited then g.bfsAux target fuel visited rest
    else g.bfsAux target fuel (insert next_pos visited)
        (rest ++ g.regionNeighbours target next_pos)

/-- `Grid::contiguous_region` from `utils/map2d/grid.rs`. -/
def Grid.contiguous_region [Inhabited α] [DecidableEq α] (g : Grid α) (pos : ValidPosition) :
    Finset ValidPosition :=
  g.bfsAux (g.value pos) (5 * (g.bounds.fst * g.bounds.snd) + 1) ∅ [pos]

/-- One same-value step of the flood fill: `q` is an in-bounds 4-neighbour of
`p` holding the target value. -/
def Grid.sameValueStep [Inhabited α] (g : Grid α) (target : α) (p q : ValidPosition) : Prop :=
  q ∈ p.valid_neighbours g.bounds ∧ g.value q = target

/-- `q` is reachable from `pos` by repeated in-bounds 4-neighbour steps through
cells holding the value at `pos`. -/
def Grid.Reaches [Inhabited α] (g : Grid α) (pos q : ValidPosition) : Prop :=
  Relation.ReflTransGen (g.sameValueStep (g.value pos)) pos q

/-- All positions strictly inside the bounds, as a finite set (used to measure
the flood fill's progress). -/
def boundsFinset (b : Bounds) : Finset ValidPosition :=
  (Finset.range b.fst ×ˢ Finset.range b.snd).map
    ⟨fun xy => ⟨xy.1, xy.2⟩, by
      rintro ⟨x1, y1⟩ ⟨x2, y2⟩ h
      rw [ValidPosition.mk.injEq] at h
      exact Prod.ext h.1 h.2⟩

/-! ## `utils/file_io.rs` -/

/-- The filesystem, as seen by the repository: a map from paths to the list of
lines of the file at that path (`none` when the file cannot be opened). -/
def FileSystem : Type := String → Option (List String)

/-- The maximal runs of non-whitespace characters of a character list (`acc`
holds the reversed current run). -/
def wordsAux : List Char → List Char → List (List Char)
  | [], acc => if acc = [] then [] else [acc.reverse]
  | c :: cs, acc =>
    if c.isWhitespace then
      (if acc = [] then wordsAux cs [] else acc.reverse :: wordsAux cs [])
    else wordsAux cs (c :: acc)

/-- Rust's `str::split_whitespace`: the maximal whitespace-free words of the
string, in order. -/
def split_whitespace (s : String) : List String :=
  (wordsAux s.toList []).map (fun cs => String.mk cs)

/-- Mapping a fallible step over a list, stopping at the first failure: the
shape of every `iterator.map(|x| ...unwrap/expect...).collect()` in the
sources (the panic aborts the whole traversal). -/
def mapExcept {α β : Type} (f : α → Except String β) : List α → Except String (List β)
  | [] => Except.ok []
  | a :: l =>
    match f a with
    | Except.error e => Except.error e
    | Except.ok b =>
      match mapExcept f l with
      | Except.error e => Except.error e
      | Except.ok bs => Except.ok (b :: bs)

/-- Mapping a partial function over a list, `none` at the first failure (the
`Option`-valued counterpart of `mapExcept`, used for token parsing). -/
def mapOption {α β : Type} (f : α → Option β) : List α → Option (List β)
  | [] => some []
  | a :: l =>
    match f a with
    | none => none
    | some b =>
      match mapOption f l with
      | none => none
      | some bs => some (b :: bs)

/-- `lines_from_file`: `File::open(path).expect("Failed to open file.")`
followed by the lines iterator. -/
def lines_from_file (fs : FileSystem) (path : String) : Except String (List String) :=
  match fs path with
  | none => Except.error "Failed to open file."
  | some lines => Except.ok lines

/-- The per-line body of `two_columns_from_file`: parse every whitespace token
(`expect("Failed to parse: ...")`) and collect exactly two of them
(`collect_tuple` + `expect("Each line must contain exactly two elements.")`). -/
def parse_two_columns {τ : Type} (parse : String → Option τ) (line : String) :
    Except String (τ × τ) :=
  match mapOption parse (split_whitespace line) with
  | none => Except.error "Failed to parse."
  | some values =>
    match values with
    | [a, b] => Except.ok (a, b)
    | _ => Except.error "Each line must contain exactly two elements."

/-- `two_columns_from_file` from `utils/file_io.rs` (generic over the `FromStr`
instance, passed in as `parse`). -/
def two_columns_from_file {τ : Type} (parse : String → Option τ) (fs : FileSystem)
    (path : String) : Except String (List τ × List τ) :=
  match lines_from_file fs path with
  | Except.error e => Except.error e
  | Except.ok lines =>
    match mapExcept (parse_two_columns parse) lines with
    | Except.error e => Except.error e
    | Except.ok pairs => Except.ok pairs.unzip

/-- `rows_from_file` from `utils/file_io.rs`. -/
def rows_from_file {τ : Type} (parse : String → Option τ) (fs : FileSystem)
    (path : String) : Except String (List (List τ)) :=
  match lines_from_file fs path with
  | Except.error e => Except.error e
  | Except.ok lines =>
    mapExcept (fun line =>
      match mapOption parse (split_whitespace line) with
      | none => Except.error "Failed to parse."
      | some row => Except.ok row) lines

/-- `impl<T: HasCharConverter> From<Vec<String>> for Grid<T>`: each line becomes
a row via the character converter, and `bounds = (data[0].len(), data.len())`
(the source indexes `data[0]`, so it presupposes a non-empty list of lines;
`headD` stands in for that index). -/
def gridFromLines {α : Type} (conv : Char → α) (lines : List String) : Grid α :=
  let data := lines.map (fun line => line.toList.map conv)
  { data := data, bounds := ⟨(data.headD []).length, data.length⟩ }

/-! ## `day1/src/main.rs` (standalone crate) and `src/bin/day01.rs` -/

/-- The per-line body of `load_from_file` in `day1/src/main.rs`: parse every
whitespace token (`unwrap`) and collect exactly two (`collect_tuple` +
`unwrap`). -/
def day1_parse_line (parse : String → Option ℤ) (line : String) : Except String (ℤ × ℤ) :=
  match mapOption parse (split_whitespace line) with
  | none => Except.error "called unwrap on a None value"
  | some values =>
    match values with
    | [a, b] => Except.ok (a, b)
    | _ => Except.error "called unwrap on a None value"

/-- `load_from_file` from `day1/src/main.rs` (`File::open(path).expect("File
not found!")`, then per-line parsing, then `unzip`). -/
def day1_load_from_file (parse : String → Option ℤ) (fs : FileSystem) (path : String) :
    Except String (List ℤ × List ℤ) :=
  match fs path with
  | none => Except.error "File not found!"
  | some lines =>
    match mapExcept (day1_parse_line parse) lines with
    | Except.error e => Except.error e
    | Except.ok pairs => Except.ok pairs.unzip

/-- Rust's `Vec::sort` on `i32` values.  On `ℤ` every sorting algorithm yields
the same list (the sorted permutation of a multiset of integers is unique), so
the concrete algorithm is immaterial; insertion sort is used because it
computes by reduction. -/
def vecSort (v : List ℤ) : List ℤ :=
  v.insertionSort (fun a b => a ≤ b)

/-- The value printed by `main` in `day1/src/main.rs`: sort both columns and
sum the absolute pairwise differences. -/
def day1_main_result (parse : String → Option ℤ) (fs : FileSystem) : Except String ℤ :=
  match day1_load_from_file parse fs "input.txt" with
  | Except.error e => Except.error e
  | Except.ok (v1, v2) =>
    Except.ok ((((vecSort v1).zip (vecSort v2)).map (fun ab => |ab.1 - ab.2|)).sum)

/-- The full standard output of `main` in `day1/src/main.rs`: a single
`println!("{}", sum)`. -/
def day1_main_output (parse : String → Option ℤ) (fs : FileSystem) :
    Except String (List String) :=
  match day1_main_result parse fs with
  | Except.error e => Except.error e
  | Except.ok sum => Except.ok [toString sum]

/-- `part1` from `src/bin/day01.rs`. -/
def day01_part1 (parse : String → Option ℤ) (fs : FileSystem) (path : String) :
    Except String ℤ :=
  match two_columns_from_file parse fs path with
  | Except.error e => Except.error e
  | Except.ok (v1, v2) =>
    Except.ok ((((vecSort v1).zip (vecSort v2)).map (fun ab => |ab.1 - ab.2|)).sum)

/-- The entries of the itertools `counts()` frequency map of `v1`, in a
canonical order (the source iterates them in unspecified `HashMap` order; the
determinism theorem quantifies over the order). -/
def freqEntries (v : List ℤ) : List (ℤ × ℕ) :=
  v.dedup.map (fun n => (n, v.count n))

/-- The summation loop of `part2` in `src/bin/day01.rs`, over an explicit
iteration order of the `freq1` entries:
`number * occurrences1 * freq2.get(number).unwrap_or(0)`. -/
def day01_part2_over (entries : List (ℤ × ℕ)) (freq2 : ℤ → ℕ) : ℤ :=
  (entries.map (fun e => e.1 * (e.2 : ℤ) * (freq2 e.1 : ℤ))).sum

/-- `part2` from `src/bin/day01.rs`, with the canonical entry order. -/
def day01_part2 (parse : String → Option ℤ) (fs : FileSystem) (path : String) :
    Except String ℤ :=
  match two_columns_from_file parse fs path with
  | Except.error e => Except.error e
  | Except.ok (v1, v2) =>
    Except.ok (day01_part2_over (freqEntries v1) (fun n => v2.count n))

/-- The full standard output of `main` in `src/bin/day01.rs`. -/
def day01_main_output (parse : String → Option ℤ) (fs : FileSystem) :
    Except String (List String) :=
  match day01_part1 parse fs "input/input01.txt" with
  | Except.error e => Except.error e
  | Except.ok a1 =>
    match day01_part2 parse fs "input/input01.txt" with
    | Except.error e => Except.error e
    | Except.ok a2 =>
      Except.ok ["Answer to part 1:", toString a1, "Answer to part 2:", toString a2]

/-! ## `src/bin/day19.rs`: the towel-pattern trie -/

/-- `Stripe` enum from `day19.rs`. -/
inductive Stripe where
  | White
  | Blue
  | Black
  | Red
  | Green
deriving DecidableEq, Repr

/-- `type Pattern = Vec<Stripe>`. -/
abbrev Pattern := List Stripe

/-- `PatternTrieNode` from `day19.rs`; the `HashMap<Stripe, PatternTrieNode>`
of children is modelled as a function `Stripe → Option PatternTrieNode`. -/
inductive PatternTrieNode where
  | mk (is_end_of_pattern : Bool) (children : Stripe → Option PatternTrieNode)

/-- Projection of the `is_end_of_pattern` field. -/
def PatternTrieNode.is_end : PatternTrieNode → Bool
  | mk e _ => e

/-- Projection of the `children` field. -/
def PatternTrieNode.children : PatternTrieNode → Stripe → Option PatternTrieNode
  | mk _ c => c

/-- `PatternTrie::insert`, as a recursion down the pattern: walk/create child
nodes (`entry(stripe).or_insert(PatternTrieNode::new(false))`) and mark the
final node with `is_end_of_pattern = true`. -/
def PatternTrieNode.insert : PatternTrieNode → Pattern → PatternTrieNode
  | mk _ c, [] => mk true c
  | mk e c, s :: rest =>
    let child := (c s).getD (mk false (fun _ => none))
    mk e (fun t => if t = s then some (child.insert rest) else c t)

/-- The walk inside `PatternTrie::contains`, from an arbitrary node. -/
def PatternTrieNode.containsFrom : PatternTrieNode → Pattern → Bool
  | n, [] => n.is_end
  | n, s :: rest =>
    match n.children s with
    | none => false
    | some child => child.containsFrom rest

/-- `PatternTrie` from `day19.rs`. -/
structure PatternTrie where
  root : PatternTrieNode

/-- `PatternTrie::new()`: a root with `is_end_of_pattern = true` and no
children. -/
def PatternTrie.new : PatternTrie :=
  ⟨.mk true (fun _ => none)⟩

/-- `PatternTrie::insert`. -/
def PatternTrie.insert (t : PatternTrie) (p : Pattern) : PatternTrie :=
  ⟨t.root.insert p⟩

/-- `PatternTrie::from(patterns)`: insert every pattern into a new trie. -/
def PatternTrie.fromPatterns (patterns : List Pattern) : PatternTrie :=
  patterns.foldl PatternTrie.insert PatternTrie.new

/-- `PatternTrie::contains`. -/
def PatternTrie.contains (t : PatternTrie) (p : Pattern) : Bool :=
  t.root.containsFrom p

/-- `PatternTrie::can_make`, with the recursion on strict prefixes driven by an
explicit fuel (`can_make` supplies `p.length`, which the theorems show is
enough). -/
def PatternTrie.canMakeAux (t : PatternTrie) : ℕ → Pattern → Bool
  | 0, p => t.contains p
  | fuel + 1, p =>
    if t.contains p then true
    else if p.length = 1 then false
    else (List.range' 1 (p.length - 1)).any
        (fun i => t.contains (p.drop i) && t.canMakeAux fuel (p.take i))

/-- `PatternTrie::can_make`. -/
def PatternTrie.can_make (t : PatternTrie) (p : Pattern) : Bool :=
  t.canMakeAux p.length p

/-- The memoization cache of `cached_ways_to_make`
(`HashMap<Pattern, usize>`). -/
def WaysCache : Type := Pattern → Option ℕ

/-- `PatternTrie::cached_ways_to_make`, with the cache threaded explicitly and
the recursion on strict suffixes driven by an explicit fuel. -/
def PatternTrie.cachedWaysAux (t : PatternTrie) : ℕ → Pattern → WaysCache → ℕ × WaysCache
  | 0, p, cache =>
    (match cache p with
     | some stored => stored
     | none => if t.contains p then 1 else 0, cache)
  | fuel + 1, p, cache =>
    match cache p with
    | some stored => (stored, cache)
    | none =>
      if p.length ≤ 1 then (if t.contains p then 1 else 0, cache)
      else
        let result := (List.range' 1 p.length).foldl
          (fun (acc : ℕ × WaysCache) i =>
            if t.contains (p.take i) then
              let r := t.cachedWaysAux fuel (p.drop i) acc.2
              (acc.1 + r.1, r.2)
            else acc)
          (0, cache)
        (result.1, fun q => if q = p then some result.1 else result.2 q)

/-- The accumulation loop inside `cached_ways_to_make` (the
`(1..=pattern.len()).map(...).filter_map(...).sum()` pass, with the cache
threaded through). -/
def PatternTrie.cachedFold (t : PatternTrie) (fuel : ℕ) (p : Pattern) (cache : WaysCache) :
    ℕ × WaysCache :=
  (List.range' 1 p.length).foldl
    (fun acc i =>
      if t.contains (p.take i) then
        (acc.1 + (t.cachedWaysAux fuel (p.drop i) acc.2).1,
         (t.cachedWaysAux fuel (p.drop i) acc.2).2)
      else acc) (0, cache)

/-- `PatternTrie::ways_to_make`: run the memoized recursion on an empty
cache. -/
def PatternTrie.ways_to_make (t : PatternTrie) (p : Pattern) : ℕ :=
  (t.cachedWaysAux p.length p (fun _ => none)).1

/-- The cache-free value of the `ways_to_make` recursion (the reference the
memoized version is proved to compute). -/
def PatternTrie.waysAux (t : PatternTrie) : ℕ → Pattern → ℕ
  | 0, p => if t.contains p then 1 else 0
  | fuel + 1, p =>
    if p.length ≤ 1 then (if t.contains p then 1 else 0)
    else ((List.range' 1 p.length).map
        (fun i => if t.contains (p.take i) then t.waysAux fuel (p.drop i) else 0)).sum

/-- Cache-free `ways_to_make`. -/
def PatternTrie.ways (t : PatternTrie) (p : Pattern) : ℕ :=
  t.waysAux p.length p

/-- The design `p` is a concatenation of (zero or more) patterns drawn from
`patterns` — the specification-side notion of a makeable design. -/
inductive Concat (patterns : List Pattern) : Pattern → Prop
  | nil : Concat patterns []
  | cons {w p} : w ∈ patterns → Concat patterns p → Concat patterns (w ++ p)

/-- The design `p` splits into (zero or more) non-empty pieces that the trie
`contains` — the decomposition notion for an arbitrary trie. -/
inductive Decomp (t : PatternTrie) : Pattern → Prop
  | nil : Decomp t []
  | cons {w p} : w ≠ [] → t.contains w = true → Decomp t p → Decomp t (w ++ p)

/-- The counting done by `part1` in `day19.rs`: the number of designs the towel
trie `can_make`. -/
def day19_part1_count (patterns designs : List Pattern) : ℕ :=
  (designs.filter (fun design => (PatternTrie.fromPatterns patterns).can_make design)).length

/-! ## `src/bin/day22.rs`: price sequences and scores -/

/-- The key type of the day-22 score maps: four consecutive price changes. -/
abbrev Seq4 : Type := ℤ × ℤ × ℤ × ℤ

/-- `next_2000_prices` from `day22.rs`: `prices[i]` is the last digit of the
`i`-fold evolved secret, for `i = 0..=2000`. -/
def next_2000_prices (secret : ℕ) : List ℤ :=
  (List.range 2001).map (fun i => ((next_secret^[i] secret) % 10 : ℕ))

/-- `sequence_scores` from `day22.rs`: roll the change window over the prices
and record, per window, the first price at which it occurs
(`entry(sequence).or_insert(prices[i])`); the `HashMap` is modelled as a
function. -/
def sequence_scores (prices : List ℤ) : Seq4 → Option ℤ :=
  let p : ℕ → ℤ := fun i => prices.getD i 0
  let init : Seq4 := (0, p 1 - p 0, p 2 - p 1, p 3 - p 2)
  ((List.range' 4 (prices.length - 4)).foldl
    (fun (state : Seq4 × (Seq4 → Option ℤ)) i =>
      let seq : Seq4 := (state.1.2.1, state.1.2.2.1, state.1.2.2.2, p i - p (i - 1))
      let scores := state.2
      let scores' : Seq4 → Option ℤ :=
        match scores seq with
        | some _ => scores
        | none => fun k => if k = seq then some (p i) else scores k
      (seq, scores'))
    (init, fun _ => none)).2

/-- The banana total of one change sequence across all score maps (the body of
the final `keys.iter().map(...)` in `part2` of `day22.rs`). -/
def day22_scoreOf (score_maps : List (Seq4 → Option ℤ)) (key : Seq4) : ℤ :=
  (score_maps.filterMap (fun m => m key)).sum

/-- The final `max()` of `part2` in `day22.rs`, over an explicit iteration
order of the key set (the source iterates a `HashSet` in unspecified order; the
determinism theorem quantifies over the order). -/
def day22_part2_over (score_maps : List (Seq4 → Option ℤ)) (keys : List Seq4) : Option ℤ :=
  (keys.map (day22_scoreOf score_maps)).max?

/-! ## `src/bin/day23.rs`: the pruned Bron-Kerbosch clique search -/

/-- `Computer(char, char)` from `day23.rs`. -/
abbrev Computer23 := Char × Char

/-- The `format!("{}{}", computer.0, computer.1)` name of a computer. -/
def computerName (c : Computer23) : String :=
  String.mk [c.1, c.2]

/-- The adjacency relation of the `ComputerGraph` built from an edge list (the
`HashMap<Computer, HashSet<Computer>>` holds, for each endpoint, the set of
opposite endpoints; as with the other hash maps, the content is modelled as a
relation and iteration orders as explicit list parameters). -/
def day23_graphAdj (edges : List (Computer23 × Computer23)) (c d : Computer23) : Bool :=
  edges.contains (c, d) || edges.contains (d, c)

/-- `ComputerGraph::pruned_bron_kerbosch` from `day23.rs`, with the `HashSet`
candidate sets carried as lists whose order is the iteration order of the
corresponding `for c in candidates` loop, and an explicit fuel for the
recursion.  The loop state is `(best_clique, future_candidates)`; each
iteration recurses on `clique ∪ {c}` with `future_candidates ∩ neighbours(c)`
and keeps the recursion's result only when strictly larger than the best so
far. -/
def pruned_bron_kerbosch (adj : Computer23 → Computer23 → Bool) :
    ℕ → List Computer23 → List Computer23 → ℕ → Option (List Computer23)
  | 0, _, _, _ => none
  | fuel + 1, clique, candidates, largest_found =>
    if clique.length + candidates.length ≤ largest_found then none
    else if candidates = [] then some clique
    else
      (candidates.foldl
        (fun (state : Option (List Computer23) × List Computer23) c =>
          let largest := (state.1.map List.length).getD 0
          let next_clique := if c ∈ clique then clique else c :: clique
          let next_candidates := state.2.filter (fun x => adj c x)
          let best :=
            match pruned_bron_kerbosch adj fuel next_clique next_candidates largest with
            | some found => if largest < found.length then some found else state.1
            | none => state.1
          (best, state.2.filter (fun x => x ≠ c)))
        (none, candidates)).1

/-- `part2` of `day23.rs` after loading: run the clique search from the empty
clique over the key set (in the `HashSet` iteration order given by `keys`),
then print the member names sorted and comma-joined.  Sorting the `(char,
char)` pairs lexicographically sorts the two-character names exactly as the
source's `.sorted()` on the formatted strings does. -/
def day23_part2_over (adj : Computer23 → Computer23 → Bool) (keys : List Computer23)
    (fuel : ℕ) : Option String :=
  (pruned_bron_kerbosch adj fuel [] keys 0).map
    (fun clique => String.intercalate ","
      ((clique.insertionSort
          (fun a b => a.1 < b.1 ∨ (a.1 = b.1 ∧ a.2 ≤ b.2))).map computerName))

/-! ## The shape of every solution binary's `main` -/

/-- The observable shape of one binary's `main`: the distinct hardcoded input
file paths it reads, and how many computed answers it prints to standard
output. -/
structure BinShape where
  name : String
  inputPaths : List String
  computedAnswers : ℕ
deriving DecidableEq, Repr

/-- The `main` functions of all 26 solution binaries, transcribed: every
`src/bin/dayNN.rs` main prints `part1` and `part2` of one hardcoded path,
except `day25.rs`, whose second `println!` is the fixed string
`"Deliver the chronicle!"`; the standalone `day1/src/main.rs` prints the single
sum it computes from `input.txt`. -/
def repoBinaries : List BinShape :=
  [⟨"day1/src/main.rs", ["input.txt"], 1⟩,
   ⟨"src/bin/day01.rs", ["input/input01.txt"], 2⟩,
   ⟨"src/bin/day02.rs", ["input/input02.txt"], 2⟩,
   ⟨"src/bin/day03.rs", ["input/input03.txt"], 2⟩,
   ⟨"src/bin/day04.rs", ["input/input04.txt"], 2⟩,
   ⟨"src/bin/day05.rs", ["input/input05.txt"], 2⟩,
   ⟨"src/bin/day06.rs", ["input/input06.txt"], 2⟩,
   ⟨"src/bin/day07.rs", ["input/input07.txt"], 2⟩,
   ⟨"src/bin/day08.rs", ["input/input08.txt"], 2⟩,
   ⟨"src/bin/day09.rs", ["input/input09.txt"], 2⟩,
   ⟨"src/bin/day10.rs", ["input/input10.txt"], 2⟩,
   ⟨"src/bin/day11.rs", ["input/input11.txt"], 2⟩,
   ⟨"src/bin/day12.rs", ["input/input12.txt"], 2⟩,
   ⟨"src/bin/day13.rs", ["input/input13.txt"], 2⟩,
   ⟨"src/bin/day14.rs", ["input/input14.txt"], 2⟩,
   ⟨"src/bin/day15.rs", ["input/input15.txt"], 2⟩,
   ⟨"src/bin/day16.rs", ["input/input16.txt"], 2⟩,
   ⟨"src/bin/day17.rs", ["input/input17.txt"], 2⟩,
   ⟨"src/bin/day18.rs", ["input/input18.txt"], 2⟩,
   ⟨"src/bin/day19.rs", ["input/input19.txt"], 2⟩,
   ⟨"src/bin/day20.rs", ["input/input20.txt"], 2⟩,
   ⟨"src/bin/day21.rs", ["input/input21.txt"], 2⟩,
   ⟨"src/bin/day22.rs", ["input/input22.txt"], 2⟩,
   ⟨"src/bin/day23.rs", ["input/input23.txt"], 2⟩,
   ⟨"src/bin/day24.rs", ["input/input24.txt"], 2⟩,
   ⟨"src/bin/day25.rs", ["input/input25.txt"], 1⟩]

/-- A small concrete integer parser for witnesses (a finite lookup standing in
for `str::parse::<i32>` on the tokens that occur in the witness inputs). -/
def witnessParse (s : String) : Option ℤ :=
  if s = "1" then some 1 else if s = "2" then some 2
  else if s = "4" then some 4 else if s = "10" then some 10 else none

/-! ## Helper lemmas -/

/-- The final `& PRUNE_MASK` keeps every `next_secret` value below `2 ^ 24`. -/
theorem next_secret_lt (s : ℕ) : next_secret s < 2 ^ 24 := by
  have h : next_secret s ≤ PRUNE_MASK := Nat.and_le_right
  have h2 : PRUNE_MASK < 2 ^ 24 := by decide
  omega

/-- Truncating the right xor operand to 32 bits is invisible under the 24-bit
mask. -/
theorem xor_mod_and_mask (a b : ℕ) :
    (a ^^^ b % 2 ^ 32) &&& PRUNE_MASK = (a ^^^ b) &&& PRUNE_MASK := by
  apply Nat.eq_of_testBit_eq
  intro i
  rcases lt_or_le i 24 with hi | hi
  · rw [Nat.testBit_and, Nat.testBit_and, Nat.testBit_xor, Nat.testBit_xor,
      Nat.testBit_mod_two_pow]
    simp [show i < 32 by omega]
  · have hm : PRUNE_MASK.testBit i = false := by
      have he : PRUNE_MASK = 2 ^ 24 - 1 := by decide
      rw [he, Nat.testBit_two_pow_sub_one]
      simp [Nat.not_lt.mpr hi]
    simp [Nat.testBit_and, hm]

/-- On a 24-bit input the `u32` truncations inside `next_secret` are lossless. -/
theorem next_secret_eq_unbounded (t : ℕ) (ht : t < 2 ^ 24) :
    next_secret t = next_secret_unbounded t := by
  have h6 : (t <<< 6) % 2 ^ 32 = t <<< 6 := by
    apply Nat.mod_eq_of_lt
    rw [Nat.shiftLeft_eq]
    have h1 : (2 : ℕ) ^ 6 = 64 := by norm_num
    have h2 : (2 : ℕ) ^ 24 = 16777216 := by norm_num
    have h3 : (2 : ℕ) ^ 32 = 4294967296 := by norm_num
    rw [h1, h3]
    rw [h2] at ht
    omega
  simp only [next_secret, next_secret_unbounded, h6]
  exact xor_mod_and_mask _ _

/-- The `usize as i32` cast never exceeds the original value. -/
theorem usizeToI32_le (n : ℕ) : usizeToI32 n ≤ (n : ℤ) := by
  unfold usizeToI32
  split <;> omega

/-- Below `2 ^ 31` the `usize as i32` cast is exact. -/
theorem usizeToI32_of_lt {n : ℕ} (h : n < 2 ^ 31) : usizeToI32 n = (n : ℤ) := by
  unfold usizeToI32
  split <;> omega

/-- What a successful `in_bounds` guarantees, for arbitrary bounds: the result
repackages the coordinates, which are strictly below the bounds. -/
theorem in_bounds_some {p : Position} {b : Bounds} {vp : ValidPosition}
    (h : p.in_bounds b = some vp) :
    vp.x < b.fst ∧ vp.y < b.snd ∧ (vp.x : ℤ) = p.x ∧ (vp.y : ℤ) = p.y := by
  unfold Position.in_bounds at h
  split at h
  · rename_i hc
    obtain ⟨h0x, h0y, hxb, hyb⟩ := hc
    obtain rfl : (⟨p.x.toNat, p.y.toNat⟩ : ValidPosition) = vp := by
      exact Option.some_inj.mp h
    have hx := usizeToI32_le b.fst
    have hy := usizeToI32_le b.snd
    refine ⟨?_, ?_, ?_, ?_⟩ <;> simp <;> omega
  · exact absurd h (by simp)

/-- `List.max?` only depends on the multiset of elements. -/
theorem max?_perm_invariant {l₁ l₂ : List ℤ} (h : l₁.Perm l₂) : l₁.max? = l₂.max? := by
  have anti : Std.Antisymm (fun (a b : ℤ) => a ≤ b) := ⟨fun h1 h2 => le_antisymm h1 h2⟩
  cases h₁ : l₁.max? with
  | none =>
    rw [List.max?_eq_none_iff] at h₁
    subst h₁
    have h2 : l₂ = [] := List.eq_nil_of_length_eq_zero (h.length_eq.symm)
    simp [h2]
  | some a =>
    rw [List.max?_eq_some_iff (fun a => le_refl a) (fun a b => max_choice a b)
      (fun a b c => max_le_iff)] at h₁
    exact ((List.max?_eq_some_iff (fun a => le_refl a) (fun a b => max_choice a b)
      (fun a b c => max_le_iff)).mpr
      ⟨h.mem_iff.mp h₁.1, fun b hb => h₁.2 b (h.mem_iff.mpr hb)⟩).symm

/-! ## Claim theorems -/

/-- C10: for every `Position` `p` and `Direction` `d`, stepping in direction
`d` and then stepping in `d.turned_around()` returns to `p`. -/
theorem c10_step_turned_around_cancels (p : Position) (d : Direction) :
    (p.step d).step d.turned_around = p := by
  cases p
  cases d <;> simp [Position.step, Direction.turned_around] <;> omega

/-- C9: on every `u32` input, `next_secret` returns a value below `2 ^ 24`
(the final xor-shift is masked with the 24-bit `PRUNE_MASK`); hence every
evolved secret after the first step stays within 24 bits, and on such 24-bit
values the `u32` shift-xor arithmetic loses nothing compared to unbounded
arithmetic. -/
theorem c9_next_secret_24_bits (secret : ℕ) (h : secret < 2 ^ 32) :
    next_secret secret < 2 ^ 24 ∧
    (∀ n : ℕ, 1 ≤ n → next_secret^[n] secret < 2 ^ 24) ∧
    (∀ t : ℕ, t < 2 ^ 24 → next_secret t = next_secret_unbounded t) := by
  refine ⟨next_secret_lt secret, ?_, fun t ht => next_secret_eq_unbounded t ht⟩
  intro n hn
  obtain ⟨m, rfl⟩ := Nat.exists_eq_add_of_le hn
  rw [Nat.add_comm, Function.iterate_succ_apply']
  exact next_secret_lt _

/-- C9 witness. -/
theorem c9_witness : (123 : ℕ) < 2 ^ 32 ∧ next_secret 123 < 2 ^ 24 :=
  ⟨by norm_num, (c9_next_secret_24_bits 123 (by norm_num)).1⟩

/-- C2 counterexample: the claim's "exactly when `0 <= x < bounds.0` and
`0 <= y < bounds.1`" fails at `bounds = (2^31, 1)` and `Position(0, 0)`: the
cast `bounds.0 as i32` wraps to a negative value, so `in_bounds` returns
`None` although the coordinates are inside the claimed range. -/
theorem c2_counterexample :
    ¬ (∀ (p : Position) (b : Bounds),
        (∃ vp, p.in_bounds b = some vp) ↔
          (0 ≤ p.x ∧ p.x < (b.fst : ℤ) ∧ 0 ≤ p.y ∧ p.y < (b.snd : ℤ))) := by
  intro h
  obtain ⟨vp, hvp⟩ := (h ⟨0, 0⟩ ⟨2 ^ 31, 1⟩).mpr (by norm_num)
  have : (Position.mk 0 0).in_bounds ⟨2 ^ 31, 1⟩ = none := by
    unfold Position.in_bounds usizeToI32
    norm_num
  rw [this] at hvp
  exact Option.noConfusion hvp

/-- C2 (amended): for bounds below `2 ^ 31` (where the `usize as i32` casts
are exact), `in_bounds` returns `Some` exactly when `0 ≤ x < bounds.0` and
`0 ≤ y < bounds.1`, with the same coordinates; unconditionally, a returned
`ValidPosition` carries the same coordinates, strictly below the bounds, so on
a grid built from equal-length lines `Grid::value` indexes within `data` and
cannot panic. -/
theorem c2_in_bounds_spec (b : Bounds) (p : Position) :
    (b.fst < 2 ^ 31 → b.snd < 2 ^ 31 →
      ∀ vp, p.in_bounds b = some vp ↔
        (0 ≤ p.x ∧ p.x < (b.fst : ℤ) ∧ 0 ≤ p.y ∧ p.y < (b.snd : ℤ) ∧
          vp = ⟨p.x.toNat, p.y.toNat⟩)) ∧
    (∀ vp, p.in_bounds b = some vp →
      vp.x < b.fst ∧ vp.y < b.snd ∧ (vp.x : ℤ) = p.x ∧ (vp.y : ℤ) = p.y) ∧
    (∀ {γ : Type} (conv : Char → γ) (lines : List String) (vp : ValidPosition),
      (∀ l ∈ lines, l.length = (gridFromLines conv lines).bounds.fst) →
      p.in_bounds (gridFromLines conv lines).bounds = some vp →
      vp.y < (gridFromLines conv lines).data.length ∧
      vp.x < ((gridFromLines conv lines).data.getD vp.y []).length) := by
  refine ⟨?_, fun vp h => in_bounds_some h, ?_⟩
  · intro h1 h2 vp
    unfold Position.in_bounds
    rw [usizeToI32_of_lt h1, usizeToI32_of_lt h2] at *
    split
    · rename_i hc
      simp only [Option.some_inj]
      constructor
      · intro hvp
        exact ⟨hc.1, hc.2.2.1, hc.2.1, hc.2.2.2, hvp.symm⟩
      · intro hvp
        exact hvp.2.2.2.2.symm
    · rename_i hc
      simp only [reduceCtorEq, false_iff]
      intro hcon
      exact hc ⟨hcon.1, hcon.2.2.1, hcon.2.1, hcon.2.2.2.1⟩
  · intro γ conv lines vp hrows hvp
    obtain ⟨hx, hy, _, _⟩ := in_bounds_some hvp
    have hdata : (gridFromLines conv lines).data.length = lines.length := by
      simp [gridFromLines]
    have hbounds : (gridFromLines conv lines).bounds.snd = lines.length := by
      simp [gridFromLines]
    refine ⟨by omega, ?_⟩
    have hylt : vp.y < lines.length := by omega
    have hrow : (gridFromLines conv lines).data.getD vp.y [] =
        (lines.getD vp.y "").toList.map conv := by
      simp only [gridFromLines]
      rw [List.getD_eq_getElem?_getD, List.getD_eq_getElem?_getD,
        List.getElem?_map, List.getElem?_eq_getElem hylt]
      simp
    rw [hrow]
    have hw : (lines.getD vp.y "").length = (gridFromLines conv lines).bounds.fst :=
      hrows _ (by
        rw [List.getD_eq_getElem?_getD, List.getElem?_eq_getElem hylt]
        exact List.getElem_mem _)
    have hchars : (lines.getD vp.y "").toList.length = (lines.getD vp.y "").length := rfl
    simp only [List.length_map]
    omega

/-- C2 witness (for the amended theorem). -/
theorem c2_witness :
    (2 < 2 ^ 31 ∧ (Position.mk 1 0).in_bounds ⟨2, 2⟩ = some ⟨1, 0⟩) := by
  refine ⟨by norm_num, ?_⟩
  exact ((c2_in_bounds_spec ⟨2, 2⟩ ⟨1, 0⟩).1 (by norm_num) (by norm_num) ⟨1, 0⟩).mpr
    (by norm_num)

/-- C4 counterexample: not every solution binary writes two computed answers;
the standalone `day1/src/main.rs` prints a single computed sum. -/
theorem c4_counterexample :
    ¬ (∀ b ∈ repoBinaries, b.inputPaths.length = 1 ∧ b.computedAnswers = 2) := by
  intro h
  have h1 := h ⟨"day1/src/main.rs", ["input.txt"], 1⟩ (List.mem_cons_self _ _)
  exact absurd h1.2 (by decide)

/-- C4 (amended): every solution binary reads exactly one hardcoded input file
path; every binary writes two computed answers to standard output except
`day1/src/main.rs` (which prints a single computed sum) and `src/bin/day25.rs`
(whose second print is a fixed string, not a computed answer).  Behaviourally,
a successful run of the day-1 main prints exactly one line, while the day-01
main prints two headers and two answers. -/
theorem c4_main_shapes :
    (∀ b ∈ repoBinaries, b.inputPaths.length = 1) ∧
    (∀ b ∈ repoBinaries,
        b.name ≠ "day1/src/main.rs" → b.name ≠ "src/bin/day25.rs" →
        b.computedAnswers = 2) ∧
    (∀ (parse : String → Option ℤ) (fs : FileSystem) (out : List String),
        day1_main_output parse fs = Except.ok out → out.length = 1) ∧
    (∀ (parse : String → Option ℤ) (fs : FileSystem) (out : List String),
        day01_main_output parse fs = Except.ok out → out.length = 4) := by
  refine ⟨by decide, by decide, ?_, ?_⟩
  · intro parse fs out h
    unfold day1_main_output at h
    cases hr : day1_main_result parse fs with
    | error e => rw [hr] at h; exact Except.noConfusion h
    | ok v =>
      rw [hr] at h
      obtain rfl : [toString v] = out := Except.ok.inj h
      rfl
  · intro parse fs out h
    unfold day01_main_output at h
    cases h1 : day01_part1 parse fs "input/input01.txt" with
    | error e => rw [h1] at h; exact Except.noConfusion h
    | ok v1 =>
      cases h2 : day01_part2 parse fs "input/input01.txt" with
      | error e => rw [h1, h2] at h; exact Except.noConfusion h
      | ok v2 =>
        rw [h1, h2] at h
        obtain rfl : _ = out := Except.ok.inj h
        rfl

/-- C4 witness (for the amended theorem). -/
theorem c4_witness :
    day1_main_output (fun s => s.toInt?) (fun _ => some []) = Except.ok ["0"] ∧
    (["0"] : List String).length = 1 := by
  have hrun : day1_main_output (fun s => s.toInt?) (fun _ => some []) = Except.ok ["0"] := rfl
  exact ⟨hrun, c4_main_shapes.2.2.1 _ _ _ hrun⟩

/-- C7 counterexample: not every per-day answer function is deterministic in
its input.  On the day-23 input whose edges are `aa-ab` and `ba-bb` (two
disjoint edges, hence two maximum cliques of equal size), `part2` keeps the
first maximum clique found in `HashSet` iteration order (the comparison is
strict), so two runs iterating the same key set in different orders print
`"aa,ab"` and `"ba,bb"` respectively. -/
theorem c7_counterexample :
    ([(('a', 'a') : Computer23), ('a', 'b'), ('b', 'a'), ('b', 'b')].Perm
      [('b', 'b'), ('b', 'a'), ('a', 'b'), ('a', 'a')]) ∧
    day23_part2_over (day23_graphAdj [(('a', 'a'), ('a', 'b')), (('b', 'a'), ('b', 'b'))])
      [('a', 'a'), ('a', 'b'), ('b', 'a'), ('b', 'b')] 5 = some "aa,ab" ∧
    day23_part2_over (day23_graphAdj [(('a', 'a'), ('a', 'b')), (('b', 'a'), ('b', 'b'))])
      [('b', 'b'), ('b', 'a'), ('a', 'b'), ('a', 'a')] 5 = some "ba,bb" :=
  ⟨by decide, rfl, rfl⟩

/-- C7 (amended): the hash-order-sensitive reductions the claim cites are
deterministic — the day-22 `part2` maximum over the key set and the day-1
`part2` sum over the frequency map are invariant under any permutation of the
hash iteration order — but the universal claim fails at day-23 `part2`: its
clique search keeps the first maximum clique found in `HashSet` iteration
order, so on an input with two equally large maximum cliques different
iteration orders of the same key set yield different printed answers. -/
theorem c7_hash_order_determinism :
    (∀ (score_maps : List (Seq4 → Option ℤ)) (keys1 keys2 : List Seq4),
        keys1.Perm keys2 →
        day22_part2_over score_maps keys1 = day22_part2_over score_maps keys2) ∧
    (∀ (entries1 entries2 : List (ℤ × ℕ)) (freq2 : ℤ → ℕ),
        entries1.Perm entries2 →
        day01_part2_over entries1 freq2 = day01_part2_over entries2 freq2) ∧
    (∃ (edges : List (Computer23 × Computer23)) (keys1 keys2 : List Computer23) (fuel : ℕ),
        keys1.Perm keys2 ∧
        day23_part2_over (day23_graphAdj edges) keys1 fuel ≠
          day23_part2_over (day23_graphAdj edges) keys2 fuel) := by
  refine ⟨?_, ?_, ?_⟩
  · intro maps k1 k2 hperm
    exact max?_perm_invariant (hperm.map _)
  · intro e1 e2 f hperm
    exact List.Perm.sum_eq (hperm.map _)
  · refine ⟨[(('a', 'a'), ('a', 'b')), (('b', 'a'), ('b', 'b'))],
      [('a', 'a'), ('a', 'b'), ('b', 'a'), ('b', 'b')],
      [('b', 'b'), ('b', 'a'), ('a', 'b'), ('a', 'a')], 5, by decide, ?_⟩
    intro h
    rw [show day23_part2_over
        (day23_graphAdj [(('a', 'a'), ('a', 'b')), (('b', 'a'), ('b', 'b'))])
        [('a', 'a'), ('a', 'b'), ('b', 'a'), ('b', 'b')] 5 = some "aa,ab" from rfl,
      show day23_part2_over
        (day23_graphAdj [(('a', 'a'), ('a', 'b')), (('b', 'a'), ('b', 'b'))])
        [('b', 'b'), ('b', 'a'), ('a', 'b'), ('a', 'a')] 5 = some "ba,bb" from rfl] at h
    exact absurd (Option.some_inj.mp h) (by decide)

/-- A `mapExcept` traversal succeeds exactly when every element succeeds. -/
theorem mapExcept_ok_iff {α β : Type} (f : α → Except String β) (l : List α) :
    (∃ r, mapExcept f l = Except.ok r) ↔ ∀ a ∈ l, ∃ b, f a = Except.ok b := by
  induction l with
  | nil => simp [mapExcept]
  | cons a l ih =>
    unfold mapExcept
    cases hfa : f a with
    | error e =>
      simp only [List.mem_cons]
      constructor
      · rintro ⟨r, hr⟩
        exact absurd hr (by simp)
      · intro hall
        obtain ⟨b, hb⟩ := hall a (Or.inl rfl)
        rw [hfa] at hb
        exact absurd hb (by simp)
    | ok b =>
      cases hrest : mapExcept f l with
      | error e =>
        simp only [List.mem_cons]
        constructor
        · rintro ⟨r, hr⟩
          exact absurd hr (by simp)
        · intro hall
          obtain ⟨r, hr⟩ := ih.mpr (fun x hx => hall x (Or.inr hx))
          rw [hrest] at hr
          exact absurd hr (by simp)
      | ok bs =>
        simp only [List.mem_cons]
        constructor
        · intro _ x hx
          rcases hx with rfl | hx
          · exact ⟨b, hfa⟩
          · exact ih.mp ⟨bs, hrest⟩ x hx
        · intro _
          exact ⟨b :: bs, rfl⟩

/-- A successful `mapExcept` returns one output per input. -/
theorem mapExcept_ok_length {α β : Type} {f : α → Except String β} :
    ∀ {l : List α} {r : List β}, mapExcept f l = Except.ok r → r.length = l.length := by
  intro l
  induction l with
  | nil =>
    intro r h
    obtain rfl : ([] : List β) = r := Except.ok.inj h
    rfl
  | cons a l ih =>
    intro r h
    unfold mapExcept at h
    cases hfa : f a with
    | error e => rw [hfa] at h; exact Except.noConfusion h
    | ok b =>
      rw [hfa] at h
      cases hrest : mapExcept f l with
      | error e => rw [hrest] at h; exact Except.noConfusion h
      | ok bs =>
        rw [hrest] at h
        obtain rfl : b :: bs = r := Except.ok.inj h
        simp [ih hrest]

/-- Two fallible steps that succeed in the same cases with the same values give
`mapExcept` traversals that succeed in the same cases with the same values. -/
theorem mapExcept_congr_ok {α β : Type} {f f' : α → Except String β}
    (hff : ∀ a b, f a = Except.ok b ↔ f' a = Except.ok b) :
    ∀ (l : List α) (r : List β),
      mapExcept f l = Except.ok r ↔ mapExcept f' l = Except.ok r := by
  intro l
  induction l with
  | nil => intro r; exact Iff.rfl
  | cons a l ih =>
    intro r
    unfold mapExcept
    cases hfa : f a with
    | error e =>
      cases hfa' : f' a with
      | error e' => simp
      | ok b' =>
        exact absurd ((hff a b').mpr hfa') (by rw [hfa]; simp)
    | ok b =>
      cases hfa' : f' a with
      | error e' =>
        exact absurd ((hff a b).mp hfa) (by rw [hfa']; simp)
      | ok b' =>
        obtain rfl : b = b' := by
          have hh := (hff a b).mp hfa
          rw [hfa'] at hh
          exact (Except.ok.inj hh).symm
        cases hrest : mapExcept f l with
        | error e =>
          cases hrest' : mapExcept f' l with
          | error e' => simp
          | ok bs' =>
            exact absurd ((ih bs').mpr hrest') (by rw [hrest]; simp)
        | ok bs =>
          cases hrest' : mapExcept f' l with
          | error e' =>
            exact absurd ((ih bs).mp hrest) (by rw [hrest']; simp)
          | ok bs' =>
            obtain rfl : bs = bs' := by
              have hh := (ih bs).mp hrest
              rw [hrest'] at hh
              exact (Except.ok.inj hh).symm
            simp

/-- A `mapOption` traversal succeeds exactly when every element succeeds. -/
theorem mapOption_some_iff {α β : Type} (g : α → Option β) (l : List α) :
    (∃ r, mapOption g l = some r) ↔ ∀ a ∈ l, ∃ b, g a = some b := by
  induction l with
  | nil => simp [mapOption]
  | cons a l ih =>
    unfold mapOption
    cases hga : g a with
    | none =>
      simp only [List.mem_cons]
      constructor
      · rintro ⟨r, hr⟩
        exact absurd hr (by simp)
      · intro hall
        obtain ⟨b, hb⟩ := hall a (Or.inl rfl)
        rw [hga] at hb
        exact absurd hb (by simp)
    | some b =>
      cases hrest : mapOption g l with
      | none =>
        simp only [List.mem_cons]
        constructor
        · rintro ⟨r, hr⟩
          exact absurd hr (by simp)
        · intro hall
          obtain ⟨r, hr⟩ := ih.mpr (fun x hx => hall x (Or.inr hx))
          rw [hrest] at hr
          exact absurd hr (by simp)
      | some bs =>
        simp only [List.mem_cons]
        constructor
        · intro _ x hx
          rcases hx with rfl | hx
          · exact ⟨b, hga⟩
          · exact ih.mp ⟨bs, hrest⟩ x hx
        · intro _
          exact ⟨b :: bs, rfl⟩

/-- The per-line parser of `two_columns_from_file` succeeds exactly when the
line splits into exactly two parseable tokens. -/
theorem parse_two_columns_ok_iff {τ : Type} (parse : String → Option τ) (line : String)
    (x : τ × τ) :
    parse_two_columns parse line = Except.ok x ↔
      mapOption parse (split_whitespace line) = some [x.1, x.2] := by
  unfold parse_two_columns
  cases hm : mapOption parse (split_whitespace line) with
  | none => simp
  | some values =>
    match values with
    | [] => simp
    | [a] => simp
    | [a, b] =>
      simp only [Except.ok.injEq, Option.some_inj, List.cons.injEq, and_true]
      constructor
      · rintro rfl
        exact ⟨rfl, rfl⟩
      · rintro ⟨rfl, rfl⟩
        rfl
    | a :: b :: c :: rest => simp

/-- The per-line parser of `day1/src/main.rs` succeeds in the same cases, with
the same value, as the per-line parser of `two_columns_from_file` (they differ
only in their panic messages). -/
theorem day1_parse_line_ok_iff (parse : String → Option ℤ) (line : String) (x : ℤ × ℤ) :
    day1_parse_line parse line = Except.ok x ↔
      parse_two_columns parse line = Except.ok x := by
  rw [parse_two_columns_ok_iff]
  unfold day1_parse_line
  cases hm : mapOption parse (split_whitespace line) with
  | none => simp
  | some values =>
    match values with
    | [] => simp
    | [a] => simp
    | [a, b] =>
      simp only [Except.ok.injEq, Option.some_inj, List.cons.injEq, and_true]
      constructor
      · rintro rfl
        exact ⟨rfl, rfl⟩
      · rintro ⟨rfl, rfl⟩
        rfl
    | a :: b :: c :: rest => simp

/-- Reading an existing file yields its lines. -/
theorem lines_from_file_some {fs : FileSystem} {path : String} {lines : List String}
    (h : fs path = some lines) : lines_from_file fs path = Except.ok lines := by
  unfold lines_from_file
  rw [h]

/-- `two_columns_from_file` on an existing file reduces to the per-line
traversal. -/
theorem two_columns_from_file_eq {τ : Type} (parse : String → Option τ) {fs : FileSystem}
    {path : String} {lines : List String} (h : fs path = some lines) :
    two_columns_from_file parse fs path =
      (match mapExcept (parse_two_columns parse) lines with
        | Except.error e => Except.error e
        | Except.ok pairs => Except.ok pairs.unzip) := by
  unfold two_columns_from_file
  rw [lines_from_file_some h]

/-- `rows_from_file` on an existing file reduces to the per-line traversal. -/
theorem rows_from_file_eq {τ : Type} (parse : String → Option τ) {fs : FileSystem}
    {path : String} {lines : List String} (h : fs path = some lines) :
    rows_from_file parse fs path =
      mapExcept (fun line =>
        match mapOption parse (split_whitespace line) with
        | none => Except.error "Failed to parse."
        | some row => Except.ok row) lines := by
  unfold rows_from_file
  rw [lines_from_file_some h]

/-- C3: every file-reading and parsing helper terminates with a diagnostic
(modelled as `Except.error`) when the file is missing or a line is malformed —
`lines_from_file` when the file cannot be opened, `two_columns_from_file` when
a line does not hold exactly two parseable tokens, `rows_from_file` when a
token fails to parse, and `Direction::from(char)` off the four arrow
characters — and a success is never partial: it covers every line in full. -/
theorem c3_panic_on_malformed_input {τ : Type} (parse : String → Option τ)
    (fs : FileSystem) (path : String) :
    (fs path = none → lines_from_file fs path = Except.error "Failed to open file.") ∧
    (∀ lines, fs path = some lines → lines_from_file fs path = Except.ok lines) ∧
    (∀ lines, fs path = some lines →
      ((∃ cols, two_columns_from_file parse fs path = Except.ok cols) ↔
        ∀ line ∈ lines, ∃ a b, mapOption parse (split_whitespace line) = some [a, b]) ∧
      (∀ cols, two_columns_from_file parse fs path = Except.ok cols →
        cols.1.length = lines.length ∧ cols.2.length = lines.length)) ∧
    (fs path = none → ∃ e, two_columns_from_file parse fs path = Except.error e) ∧
    (∀ lines, fs path = some lines →
      ((∃ rows, rows_from_file parse fs path = Except.ok rows) ↔
        ∀ line ∈ lines, ∃ row, mapOption parse (split_whitespace line) = some row) ∧
      (∀ rows, rows_from_file parse fs path = Except.ok rows →
        mapOption (fun line => mapOption parse (split_whitespace line)) lines = some rows)) ∧
    (fs path = none → ∃ e, rows_from_file parse fs path = Except.error e) ∧
    (∀ c : Char, (∃ e, Direction.fromChar c = Except.error e) ↔
      c ∉ (['^', '>', 'v', '<'] : List Char)) := by
  refine ⟨?_, ?_, ?_, ?_, ?_, ?_, ?_⟩
  · intro h
    unfold lines_from_file
    rw [h]
  · intro lines h
    unfold lines_from_file
    rw [h]
  · intro lines h
    have heq := two_columns_from_file_eq parse h
    constructor
    · constructor
      · rintro ⟨cols, hcols⟩
        rw [heq] at hcols
        intro line hline
        cases hme : mapExcept (parse_two_columns parse) lines with
        | error e => rw [hme] at hcols; exact Except.noConfusion hcols
        | ok pairs =>
          obtain ⟨x, hx⟩ := (mapExcept_ok_iff (parse_two_columns parse) lines).mp
            ⟨pairs, hme⟩ line hline
          exact ⟨x.1, x.2, (parse_two_columns_ok_iff parse line x).mp hx⟩
      · intro hall
        obtain ⟨pairs, hpairs⟩ := (mapExcept_ok_iff (parse_two_columns parse) lines).mpr
          (fun line hline => by
            obtain ⟨a, b, hab⟩ := hall line hline
            exact ⟨(a, b), (parse_two_columns_ok_iff parse line (a, b)).mpr hab⟩)
        exact ⟨pairs.unzip, by rw [heq, hpairs]⟩
    · intro cols hcols
      rw [heq] at hcols
      cases hme : mapExcept (parse_two_columns parse) lines with
      | error e => rw [hme] at hcols; exact Except.noConfusion hcols
      | ok pairs =>
        rw [hme] at hcols
        obtain rfl : pairs.unzip = cols := Except.ok.inj hcols
        have hlen := mapExcept_ok_length hme
        constructor
        · rw [List.unzip_fst, List.length_map, hlen]
        · rw [List.unzip_snd, List.length_map, hlen]
  · intro h
    unfold two_columns_from_file lines_from_file
    rw [h]
    exact ⟨_, rfl⟩
  · intro lines h
    have heq := rows_from_file_eq parse h
    have hpt : ∀ (line : String) (row : List τ),
        (match mapOption parse (split_whitespace line) with
          | none => (Except.error "Failed to parse." : Except String (List τ))
          | some r => Except.ok r) = Except.ok row ↔
        mapOption parse (split_whitespace line) = some row := by
      intro line row
      cases hm : mapOption parse (split_whitespace line) with
      | none => simp
      | some r => simp
    constructor
    · rw [heq, mapExcept_ok_iff]
      constructor
      · intro hall line hline
        obtain ⟨row, hrow⟩ := hall line hline
        exact ⟨row, (hpt line row).mp hrow⟩
      · intro hall line hline
        obtain ⟨row, hrow⟩ := hall line hline
        exact ⟨row, (hpt line row).mpr hrow⟩
    · intro rows hrows
      rw [heq] at hrows
      clear heq h
      induction lines generalizing rows with
      | nil =>
        obtain rfl : ([] : List (List τ)) = rows := Except.ok.inj hrows
        rfl
      | cons line rest ih =>
        unfold mapExcept at hrows
        cases hm : mapOption parse (split_whitespace line) with
        | none =>
          have hline : (match mapOption parse (split_whitespace line) with
              | none => (Except.error "Failed to parse." : Except String (List τ))
              | some r => Except.ok r) = Except.error "Failed to parse." := by rw [hm]
          rw [hline] at hrows
          exact Except.noConfusion hrows
        | some row =>
          have hline : (match mapOption parse (split_whitespace line) with
              | none => (Except.error "Failed to parse." : Except String (List τ))
              | some r => Except.ok r) = Except.ok row := by rw [hm]
          rw [hline] at hrows
          cases hrest : mapExcept (fun line =>
              match mapOption parse (split_whitespace line) with
              | none => (Except.error "Failed to parse." : Except String (List τ))
              | some r => Except.ok r) rest with
          | error e => rw [hrest] at hrows; exact Except.noConfusion hrows
          | ok rows' =>
            rw [hrest] at hrows
            obtain rfl : row :: rows' = rows := Except.ok.inj hrows
            unfold mapOption
            rw [hm, ih rows' hrest]
  · intro h
    unfold rows_from_file lines_from_file
    rw [h]
    exact ⟨_, rfl⟩
  · intro c
    constructor
    · rintro ⟨e, he⟩ hc
      simp only [List.mem_cons, List.not_mem_nil, or_false] at hc
      rcases hc with rfl | rfl | rfl | rfl
      all_goals exact Except.noConfusion (by rw [← he] : Except.error e = _)
    · intro hc
      refine ⟨"Invalid character specified to create Direction.", ?_⟩
      unfold Direction.fromChar
      simp only [List.mem_cons, not_or] at hc
      obtain ⟨h1, h2, h3, h4, _⟩ := hc
      split
      · exact absurd rfl h1
      · exact absurd rfl h2
      · exact absurd rfl h3
      · exact absurd rfl h4
      · rfl

/-- C3 witness. -/
theorem c3_witness :
    ((fun _ : String => (none : Option (List String))) "missing.txt" = none) ∧
    lines_from_file (fun _ => none) "missing.txt" = Except.error "Failed to open file." :=
  ⟨rfl, (c3_panic_on_malformed_input (fun s => s.toInt?) (fun _ => none) "missing.txt").1 rfl⟩

/-- C6: on any input whose lines parse as two whitespace-separated integer
columns, the sum printed by `day1/src/main.rs` equals the `part1` value of
`src/bin/day01.rs` on the same file contents (both sort the columns and sum
absolute pairwise differences). -/
theorem c6_day1_reimplementations_agree (parse : String → Option ℤ)
    (fs fs2 : FileSystem) (path : String) (v : ℤ)
    (hsame : fs "input.txt" = fs2 path)
    (hrun : day1_main_result parse fs = Except.ok v) :
    day01_part1 parse fs2 path = Except.ok v := by
  unfold day1_main_result at hrun
  cases hload : day1_load_from_file parse fs "input.txt" with
  | error e => rw [hload] at hrun; exact Except.noConfusion hrun
  | ok cols =>
    rw [hload] at hrun
    obtain ⟨v1, v2⟩ := cols
    obtain rfl : _ = v := Except.ok.inj hrun
    unfold day1_load_from_file at hload
    cases hfs : fs "input.txt" with
    | none => rw [hfs] at hload; exact Except.noConfusion hload
    | some lines =>
      rw [hfs] at hload
      have hload2 : (match mapExcept (day1_parse_line parse) lines with
          | Except.error e => (Except.error e : Except String (List ℤ × List ℤ))
          | Except.ok pairs => Except.ok pairs.unzip) = Except.ok (v1, v2) := hload
      cases hme : mapExcept (day1_parse_line parse) lines with
      | error e => rw [hme] at hload2; exact Except.noConfusion hload2
      | ok pairs =>
        rw [hme] at hload2
        have hpairs : pairs.unzip = (v1, v2) := Except.ok.inj hload2
        have hme' : mapExcept (parse_two_columns parse) lines = Except.ok pairs :=
          (mapExcept_congr_ok (fun a b => day1_parse_line_ok_iff parse a b) lines pairs).mp hme
        have hfs2 : fs2 path = some lines := by rw [← hsame]; exact hfs
        have h2c : two_columns_from_file parse fs2 path = Except.ok (v1, v2) := by
          rw [two_columns_from_file_eq parse hfs2, hme']
          show Except.ok pairs.unzip = _
          rw [hpairs]
        unfold day01_part1
        rw [h2c]

/-- C6 witness. -/
theorem c6_witness :
    ((fun p : String => if p = "input.txt" then some ["1 2", "10 4"] else none) "input.txt" =
      (fun p : String => if p = "input.txt" then some ["1 2", "10 4"] else none) "input.txt") ∧
    day1_main_result witnessParse
      (fun p => if p = "input.txt" then some ["1 2", "10 4"] else none) = Except.ok 7 ∧
    day01_part1 witnessParse
      (fun p => if p = "input.txt" then some ["1 2", "10 4"] else none) "input.txt" =
      Except.ok 7 := by
  refine ⟨rfl, ?_, ?_⟩
  · rfl
  · exact c6_day1_reimplementations_agree witnessParse
      (fun p => if p = "input.txt" then some ["1 2", "10 4"] else none)
      (fun p => if p = "input.txt" then some ["1 2", "10 4"] else none)
      "input.txt" 7 rfl rfl

/-- A fresh (non-end, childless) trie node contains nothing. -/
theorem freshNode_containsFrom (p : Pattern) :
    (PatternTrieNode.mk false (fun _ => none)).containsFrom p = false := by
  cases p <;> rfl

/-- Inserting `w` makes exactly `w` newly contained. -/
theorem containsFrom_insert (w : Pattern) :
    ∀ (n : PatternTrieNode) (p : Pattern),
      (n.insert w).containsFrom p = true ↔ (n.containsFrom p = true ∨ p = w) := by
  induction w with
  | nil =>
    intro n p
    obtain ⟨e, c⟩ := n
    cases p with
    | nil => simp [PatternTrieNode.insert, PatternTrieNode.containsFrom, PatternTrieNode.is_end]
    | cons t ps =>
      simp [PatternTrieNode.insert, PatternTrieNode.containsFrom, PatternTrieNode.children]
  | cons s ws ih =>
    intro n p
    obtain ⟨e, c⟩ := n
    cases p with
    | nil =>
      simp [PatternTrieNode.insert, PatternTrieNode.containsFrom, PatternTrieNode.is_end]
    | cons t ps =>
      show (match (if t = s then some (((c s).getD _).insert ws) else c t) with
        | none => false
        | some child => child.containsFrom ps) = true ↔ _
      by_cases hts : t = s
      · subst hts
        rw [if_pos rfl]
        cases hcs : c t with
        | none =>
          show (((PatternTrieNode.mk false fun _ => none).insert ws).containsFrom ps = true) ↔ _
          rw [ih]
          rw [freshNode_containsFrom]
          have hold : (PatternTrieNode.mk e c).containsFrom (t :: ps) = false := by
            show (match c t with
              | none => false
              | some child => child.containsFrom ps) = false
            rw [hcs]
          rw [hold]
          simp
        | some ch =>
          show ((ch.insert ws).containsFrom ps = true) ↔ _
          rw [ih]
          have hold : (PatternTrieNode.mk e c).containsFrom (t :: ps) = ch.containsFrom ps := by
            show (match c t with
              | none => false
              | some child => child.containsFrom ps) = _
            rw [hcs]
          rw [hold]
          simp
      · rw [if_neg hts]
        have hold : (PatternTrieNode.mk e c).containsFrom (t :: ps) =
            (match c t with
              | none => false
              | some child => child.containsFrom ps) := rfl
        rw [← hold]
        simp only [List.cons.injEq]
        constructor
        · intro h
          exact Or.inl h
        · rintro (h | ⟨rfl, rfl⟩)
          · exact h
          · exact absurd rfl hts

/-- `contains` after folding `insert` over a pattern list. -/
theorem contains_foldl_insert :
    ∀ (pats : List Pattern) (t : PatternTrie) (p : Pattern),
      (pats.foldl PatternTrie.insert t).contains p = true ↔
        (t.contains p = true ∨ p ∈ pats) := by
  intro pats
  induction pats with
  | nil => intro t p; simp
  | cons w pats ih =>
    intro t p
    show ((pats.foldl PatternTrie.insert (t.insert w)).contains p = true) ↔ _
    rw [ih]
    show ((t.root.insert w).containsFrom p = true) ∨ _ ↔ _
    rw [containsFrom_insert]
    simp only [List.mem_cons]
    tauto

/-- `PatternTrie::contains` on a trie built by `from`: exactly the inserted
patterns and the empty pattern (the root is created end-marked). -/
theorem contains_fromPatterns (pats : List Pattern) (p : Pattern) :
    (PatternTrie.fromPatterns pats).contains p = true ↔ (p = [] ∨ p ∈ pats) := by
  unfold PatternTrie.fromPatterns
  rw [contains_foldl_insert]
  have hnew : PatternTrie.new.contains p = true ↔ p = [] := by
    cases p with
    | nil => simp [PatternTrie.new, PatternTrie.contains, PatternTrieNode.containsFrom,
        PatternTrieNode.is_end]
    | cons s ps => simp [PatternTrie.new, PatternTrie.contains, PatternTrieNode.containsFrom,
        PatternTrieNode.children]
  rw [hnew]

/-- Every trie reachable in the source contains the empty pattern. -/
theorem contains_nil_fromPatterns (pats : List Pattern) :
    (PatternTrie.fromPatterns pats).contains [] = true :=
  (contains_fromPatterns pats []).mpr (Or.inl rfl)

/-- A contained non-empty pattern is a one-piece decomposition. -/
theorem decomp_of_contains (t : PatternTrie) {p : Pattern} (hc : t.contains p = true) :
    Decomp t p := by
  by_cases hp : p = []
  · subst hp; exact Decomp.nil
  · have h := Decomp.cons hp hc Decomp.nil
    rwa [List.append_nil] at h

/-- A decomposition may be extended by a contained piece on the right. -/
theorem decomp_append (t : PatternTrie) {p w : Pattern} (hd : Decomp t p) (hw : w ≠ [])
    (hc : t.contains w = true) : Decomp t (p ++ w) := by
  induction hd with
  | nil => simpa using decomp_of_contains t hc
  | cons h1 h2 _ ih =>
    rw [List.append_assoc]
    exact Decomp.cons h1 h2 ih

/-- A decomposition of a pattern peels off a final contained piece. -/
theorem decomp_peel (t : PatternTrie) :
    ∀ {p : Pattern}, Decomp t p →
      p = [] ∨ ∃ q w, p = q ++ w ∧ w ≠ [] ∧ t.contains w = true ∧ Decomp t q := by
  intro p hd
  induction hd with
  | nil => exact Or.inl rfl
  | cons hw hc hd ih =>
    rename_i w1 p1
    rcases ih with rfl | ⟨q, w2, rfl, hw2, hc2, hdq⟩
    · exact Or.inr ⟨[], w1, by simp, hw, hc, Decomp.nil⟩
    · exact Or.inr ⟨w1 ++ q, w2, by rw [List.append_assoc], hw2, hc2, Decomp.cons hw hc hdq⟩

/-- A contained length-one pattern is the only decomposition of itself. -/
theorem decomp_singleton (t : PatternTrie) {p : Pattern} (hlen : p.length = 1)
    (hd : Decomp t p) : t.contains p = true := by
  rcases decomp_peel t hd with rfl | ⟨q, w, rfl, hw, hc, _⟩
  · simp at hlen
  · have hq : q = [] := by
      have hwl : 1 ≤ w.length := List.length_pos.mpr hw
      rw [List.length_append] at hlen
      exact List.eq_nil_of_length_eq_zero (by omega)
    subst hq
    rwa [List.nil_append]

/-- `can_make` (at any sufficient fuel) decides decomposability into non-empty
contained pieces, on any trie whose root is end-marked. -/
theorem canMakeAux_iff_decomp (t : PatternTrie) (h0 : t.contains [] = true) :
    ∀ (fuel : ℕ) (p : Pattern), p.length ≤ fuel →
      (t.canMakeAux fuel p = true ↔ Decomp t p) := by
  intro fuel
  induction fuel with
  | zero =>
    intro p hp
    obtain rfl : p = [] := List.eq_nil_of_length_eq_zero (Nat.le_zero.mp hp)
    show t.contains [] = true ↔ _
    rw [h0]
    simp only [true_iff]
    exact Decomp.nil
  | succ fuel ih =>
    intro p hp
    show (if t.contains p = true then true
      else if p.length = 1 then false
      else (List.range' 1 (p.length - 1)).any
        (fun i => t.contains (p.drop i) && t.canMakeAux fuel (p.take i))) = true ↔ _
    by_cases hc : t.contains p = true
    · rw [if_pos hc]
      simp only [true_iff]
      exact decomp_of_contains t hc
    · rw [if_neg hc]
      by_cases hlen : p.length = 1
      · rw [if_pos hlen]
        simp only [Bool.false_eq_true, false_iff]
        intro hd
        exact hc (decomp_singleton t hlen hd)
      · rw [if_neg hlen]
        rw [List.any_eq_true]
        constructor
        · rintro ⟨i, hi, hterm⟩
          rw [List.mem_range'_1] at hi
          rw [Bool.and_eq_true] at hterm
          have hilen : i < p.length := by omega
          have htake : (p.take i).length ≤ fuel := by
            rw [List.length_take]
            omega
          have hdq : Decomp t (p.take i) := (ih (p.take i) htake).mp hterm.2
          have hdrop_ne : p.drop i ≠ [] := by
            intro hnil
            have := List.length_drop i p ▸ congrArg List.length hnil
            simp at this
            omega
          have := decomp_append t hdq hdrop_ne hterm.1
          rwa [List.take_append_drop] at this
        · intro hd
          have hpnil : p ≠ [] := by
            intro hnil
            subst hnil
            exact hc h0
          rcases decomp_peel t hd with rfl | ⟨q, w, rfl, hw, hcw, hdq⟩
          · exact absurd rfl hpnil
          · have hqnil : q ≠ [] := by
              intro hnil
              subst hnil
              rw [List.nil_append] at hc
              exact hc hcw
            have hql : 1 ≤ q.length := List.length_pos.mpr hqnil
            have hwl : 1 ≤ w.length := List.length_pos.mpr hw
            refine ⟨q.length, ?_, ?_⟩
            · rw [List.mem_range'_1, List.length_append]
              omega
            · rw [Bool.and_eq_true]
              constructor
              · rw [List.drop_left]
                exact hcw
              · rw [List.take_left]
                have hqfuel : q.length ≤ fuel := by
                  rw [List.length_append] at hp
                  omega
                exact (ih q hqfuel).mpr hdq

/-- `can_make` decides decomposability. -/
theorem can_make_iff_decomp (t : PatternTrie) (h0 : t.contains [] = true) (p : Pattern) :
    t.can_make p = true ↔ Decomp t p :=
  canMakeAux_iff_decomp t h0 p.length p (le_refl _)

/-- On patterns of length at most one, `ways` is `contains` read as a count. -/
theorem ways_short (t : PatternTrie) {p : Pattern} (h : p.length ≤ 1) :
    t.ways p = if t.contains p then 1 else 0 := by
  unfold PatternTrie.ways
  cases p with
  | nil => rfl
  | cons a q =>
    cases q with
    | nil =>
      show (if ([a] : Pattern).length ≤ 1 then (if t.contains [a] then 1 else 0) else _) = _
      rw [if_pos (by simp)]
    | cons b r => simp at h

/-- `waysAux` does not depend on the fuel once the fuel covers the length. -/
theorem waysAux_congr (t : PatternTrie) :
    ∀ (f1 f2 : ℕ) (p : Pattern), p.length ≤ f1 → p.length ≤ f2 →
      t.waysAux f1 p = t.waysAux f2 p := by
  intro f1
  induction f1 with
  | zero =>
    intro f2 p h1 _
    obtain rfl : p = [] := List.eq_nil_of_length_eq_zero (Nat.le_zero.mp h1)
    cases f2 with
    | zero => rfl
    | succ g =>
      have hr : t.waysAux (g + 1) [] = if t.contains [] then 1 else 0 := by
        show (if ([] : Pattern).length ≤ 1 then (if t.contains [] then 1 else 0) else _) = _
        rw [if_pos (by simp)]
      rw [hr]
      rfl
  | succ g1 ih =>
    intro f2 p h1 h2
    cases f2 with
    | zero =>
      obtain rfl : p = [] := List.eq_nil_of_length_eq_zero (Nat.le_zero.mp h2)
      have hr : t.waysAux (g1 + 1) [] = if t.contains [] then 1 else 0 := by
        show (if ([] : Pattern).length ≤ 1 then (if t.contains [] then 1 else 0) else _) = _
        rw [if_pos (by simp)]
      rw [hr]
      rfl
    | succ g2 =>
      show (if p.length ≤ 1 then (if t.contains p then 1 else 0)
          else ((List.range' 1 p.length).map
            (fun i => if t.contains (p.take i) then t.waysAux g1 (p.drop i) else 0)).sum) =
        (if p.length ≤ 1 then (if t.contains p then 1 else 0)
          else ((List.range' 1 p.length).map
            (fun i => if t.contains (p.take i) then t.waysAux g2 (p.drop i) else 0)).sum)
      by_cases hl : p.length ≤ 1
      · rw [if_pos hl, if_pos hl]
      · rw [if_neg hl, if_neg hl]
        congr 1
        apply List.map_congr_left
        intro i hi
        rw [List.mem_range'_1] at hi
        by_cases hct : t.contains (p.take i) = true
        · rw [if_pos hct, if_pos hct]
          apply ih
          · rw [List.length_drop]; omega
          · rw [List.length_drop]; omega
        · rw [if_neg hct, if_neg hct]

/-- On longer patterns, `ways` unfolds to the sum over first-piece splits. -/
theorem ways_long (t : PatternTrie) {p : Pattern} (hl : ¬ p.length ≤ 1) :
    t.ways p = ((List.range' 1 p.length).map
      (fun i => if t.contains (p.take i) then t.ways (p.drop i) else 0)).sum := by
  unfold PatternTrie.ways
  obtain ⟨g, hg⟩ : ∃ g, p.length = g + 1 := ⟨p.length - 1, by omega⟩
  conv_lhs => rw [hg]
  show (if p.length ≤ 1 then (if t.contains p then 1 else 0)
      else ((List.range' 1 p.length).map
        (fun i => if t.contains (p.take i) then t.waysAux g (p.drop i) else 0)).sum) = _
  rw [if_neg hl]
  congr 1
  apply List.map_congr_left
  intro i hi
  rw [List.mem_range'_1] at hi
  by_cases hct : t.contains (p.take i) = true
  · rw [if_pos hct, if_pos hct]
    apply waysAux_congr
    · rw [List.length_drop]; omega
    · exact le_refl _
  · rw [if_neg hct, if_neg hct]

/-- A sum of naturals is positive exactly when some term is. -/
theorem sum_map_pos_iff {α : Type} (f : α → ℕ) (l : List α) :
    0 < (l.map f).sum ↔ ∃ i ∈ l, 0 < f i := by
  induction l with
  | nil => simp
  | cons a l ih =>
    rw [List.map_cons, List.sum_cons]
    constructor
    · intro h
      by_cases hfa : 0 < f a
      · exact ⟨a, List.mem_cons_self _ _, hfa⟩
      · have hsum : 0 < (l.map f).sum := by omega
        obtain ⟨i, hi, hfi⟩ := ih.mp hsum
        exact ⟨i, List.mem_cons_of_mem _ hi, hfi⟩
    · rintro ⟨i, hi, hfi⟩
      rcases List.mem_cons.mp hi with rfl | hi
      · omega
      · have hsum : 0 < (l.map f).sum := ih.mpr ⟨i, hi, hfi⟩
        omega

/-- `ways` is positive exactly on decomposable patterns (for a trie whose root
is end-marked). -/
theorem ways_pos_iff_decomp (t : PatternTrie) (h0 : t.contains [] = true) (p : Pattern) :
    0 < t.ways p ↔ Decomp t p := by
  have hmain : ∀ (m : ℕ) (q : Pattern), q.length ≤ m → (0 < t.ways q ↔ Decomp t q) := by
    intro m
    induction m with
    | zero =>
      intro q hq
      obtain rfl : q = [] := List.eq_nil_of_length_eq_zero (Nat.le_zero.mp hq)
      rw [ways_short t (by simp), if_pos h0]
      exact ⟨fun _ => Decomp.nil, fun _ => Nat.one_pos⟩
    | succ m ih =>
      intro q hq
      by_cases hl : q.length ≤ 1
      · rw [ways_short t hl]
        by_cases hc : t.contains q = true
        · rw [if_pos hc]
          exact ⟨fun _ => decomp_of_contains t hc, fun _ => Nat.one_pos⟩
        · rw [if_neg hc]
          simp only [Nat.lt_irrefl, false_iff]
          intro hd
          rcases Nat.le_one_iff_eq_zero_or_eq_one.mp hl with h0l | h1l
          · exact hc (List.eq_nil_of_length_eq_zero h0l ▸ h0)
          · exact hc (decomp_singleton t h1l hd)
      · rw [ways_long t hl, sum_map_pos_iff]
        constructor
        · rintro ⟨i, hi, hpos⟩
          rw [List.mem_range'_1] at hi
          by_cases hct : t.contains (q.take i) = true
          · rw [if_pos hct] at hpos
            have hdl : (q.drop i).length ≤ m := by
              rw [List.length_drop]
              omega
            have hdq : Decomp t (q.drop i) := (ih (q.drop i) hdl).mp hpos
            have htne : q.take i ≠ [] := by
              apply List.length_pos.mp
              rw [List.length_take]
              omega
            have := Decomp.cons htne hct hdq
            rwa [List.take_append_drop] at this
          · rw [if_neg hct] at hpos
            exact absurd hpos (by simp)
        · intro hd
          cases hd with
          | nil => simp at hl
          | cons hw hc hd =>
            rename_i w pr
            have hwl : 1 ≤ w.length := List.length_pos.mpr hw
            refine ⟨w.length, ?_, ?_⟩
            · rw [List.mem_range'_1, List.length_append]
              omega
            · rw [List.take_left, if_pos hc, List.drop_left]
              have hprl : pr.length ≤ m := by
                rw [List.length_append] at hq
                omega
              exact (ih pr hprl).mpr hd
  exact hmain p.length p (le_refl _)

/-- Unfolding of the memoized recursion in the interesting case (cache miss on
a pattern of length at least two). -/
theorem cachedWaysAux_step (t : PatternTrie) (fuel : ℕ) (p : Pattern) (cache : WaysCache)
    (hc : cache p = none) (hl : ¬ p.length ≤ 1) :
    t.cachedWaysAux (fuel + 1) p cache =
      ((t.cachedFold fuel p cache).1,
       fun q => if q = p then some (t.cachedFold fuel p cache).1
         else (t.cachedFold fuel p cache).2 q) := by
  have h1 : t.cachedWaysAux (fuel + 1) p cache =
      (match cache p with
        | some stored => (stored, cache)
        | none =>
          if p.length ≤ 1 then ((if t.contains p then 1 else 0 : ℕ), cache)
          else
            ((t.cachedFold fuel p cache).1,
             fun q => if q = p then some (t.cachedFold fuel p cache).1
               else (t.cachedFold fuel p cache).2 q)) := rfl
  rw [h1, hc, if_neg hl]

/-- The memoized recursion computes `ways` and only ever caches correct
values. -/
theorem cachedWaysAux_correct (t : PatternTrie) :
    ∀ (fuel : ℕ) (p : Pattern) (cache : WaysCache),
      p.length ≤ fuel →
      (∀ q n, cache q = some n → n = t.ways q) →
      ((t.cachedWaysAux fuel p cache).1 = t.ways p ∧
       ∀ q n, (t.cachedWaysAux fuel p cache).2 q = some n → n = t.ways q) := by
  intro fuel
  induction fuel with
  | zero =>
    intro p cache hp hv
    obtain rfl : p = [] := List.eq_nil_of_length_eq_zero (Nat.le_zero.mp hp)
    show ((match cache [] with
      | some stored => stored
      | none => if t.contains [] then 1 else 0 : ℕ), cache).1 = _ ∧ _
    cases hcc : cache [] with
    | some stored =>
      exact ⟨hv [] stored hcc, hv⟩
    | none =>
      exact ⟨(ways_short t (by simp)).symm, hv⟩
  | succ fuel ih =>
    intro p cache hp hv
    cases hcc : cache p with
    | some stored =>
      have hred : t.cachedWaysAux (fuel + 1) p cache = (stored, cache) := by
        unfold PatternTrie.cachedWaysAux
        rw [hcc]
      rw [hred]
      exact ⟨hv p stored hcc, hv⟩
    | none =>
      by_cases hl : p.length ≤ 1
      · have hred : t.cachedWaysAux (fuel + 1) p cache =
            ((if t.contains p then 1 else 0 : ℕ), cache) := by
          unfold PatternTrie.cachedWaysAux
          rw [hcc]
          rw [if_pos hl]
        rw [hred]
        exact ⟨(ways_short t hl).symm, hv⟩
      · have hstep := cachedWaysAux_step t fuel p cache hcc hl
        have hfold : ∀ (is : List ℕ), (∀ i ∈ is, 1 ≤ i ∧ i ≤ p.length) →
            ∀ (acc : ℕ × WaysCache), (∀ q n, acc.2 q = some n → n = t.ways q) →
            ((is.foldl
                (fun acc i =>
                  if t.contains (p.take i) then
                    (acc.1 + (t.cachedWaysAux fuel (p.drop i) acc.2).1,
                     (t.cachedWaysAux fuel (p.drop i) acc.2).2)
                  else acc) acc).1 =
              acc.1 + (is.map
                (fun i => if t.contains (p.take i) then t.ways (p.drop i) else 0)).sum ∧
             ∀ q n, ((is.foldl
                (fun acc i =>
                  if t.contains (p.take i) then
                    (acc.1 + (t.cachedWaysAux fuel (p.drop i) acc.2).1,
                     (t.cachedWaysAux fuel (p.drop i) acc.2).2)
                  else acc) acc).2 q = some n → n = t.ways q)) := by
          intro is
          induction is with
          | nil =>
            intro _ acc hacc
            constructor
            · simp
            · simpa using hacc
          | cons i is ihl =>
            intro hmem acc hacc
            obtain ⟨hi1, hi2⟩ := hmem i (List.mem_cons_self _ _)
            rw [List.foldl_cons, List.map_cons, List.sum_cons]
            by_cases hct : t.contains (p.take i) = true
            · rw [if_pos hct, if_pos hct]
              have hdl : (p.drop i).length ≤ fuel := by
                rw [List.length_drop]
                omega
              have hrec := ih (p.drop i) acc.2 hdl hacc
              have hres := ihl (fun j hj => hmem j (List.mem_cons_of_mem _ hj))
                (acc.1 + (t.cachedWaysAux fuel (p.drop i) acc.2).1,
                 (t.cachedWaysAux fuel (p.drop i) acc.2).2) hrec.2
              constructor
              · rw [hres.1]
                show acc.1 + (t.cachedWaysAux fuel (p.drop i) acc.2).1 + _ = _
                rw [hrec.1]
                omega
              · exact hres.2
            · rw [if_neg hct, if_neg hct]
              have hres := ihl (fun j hj => hmem j (List.mem_cons_of_mem _ hj)) acc hacc
              constructor
              · rw [hres.1]
                omega
              · exact hres.2
        have hmem0 : ∀ i ∈ List.range' 1 p.length, 1 ≤ i ∧ i ≤ p.length := by
          intro i hi
          rw [List.mem_range'_1] at hi
          omega
        have hmain := hfold (List.range' 1 p.length) hmem0 (0, cache) hv
        have hmain1 : (t.cachedFold fuel p cache).1 =
            0 + ((List.range' 1 p.length).map
              (fun i => if t.contains (p.take i) then t.ways (p.drop i) else 0)).sum :=
          hmain.1
        have hmain2 : ∀ q n, (t.cachedFold fuel p cache).2 q = some n → n = t.ways q :=
          hmain.2
        have hval : (t.cachedFold fuel p cache).1 = t.ways p := by
          rw [hmain1, Nat.zero_add, ways_long t hl]
        constructor
        · rw [hstep]
          exact hval
        · intro q n hq
          rw [hstep] at hq
          have hq2 : (if q = p then some (t.cachedFold fuel p cache).1
              else (t.cachedFold fuel p cache).2 q) = some n := hq
          by_cases hqp : q = p
          · subst hqp
            rw [if_pos rfl] at hq2
            obtain rfl : _ = n := Option.some_inj.mp hq2
            rw [hval]
          · rw [if_neg hqp] at hq2
            exact hmain2 q n hq2

/-- `ways_to_make` (memoized, started on an empty cache) equals the pure
counting recursion. -/
theorem ways_to_make_eq_ways (t : PatternTrie) (p : Pattern) :
    t.ways_to_make p = t.ways p :=
  (cachedWaysAux_correct t p.length p (fun _ => none) (le_refl _)
    (fun q n h => Option.noConfusion h)).1

/-- For tries built by `PatternTrie::from`, non-empty contained-piece
decompositions are exactly concatenations of listed patterns, when all listed
patterns are non-empty. -/
theorem decomp_iff_concat (pats : List Pattern) (h : ∀ w ∈ pats, w ≠ []) (p : Pattern) :
    Decomp (PatternTrie.fromPatterns pats) p ↔ Concat pats p := by
  constructor
  · intro hd
    induction hd with
    | nil => exact Concat.nil
    | cons hw hc _ ih =>
      rcases (contains_fromPatterns pats _).mp hc with rfl | hmem
      · exact absurd rfl hw
      · exact Concat.cons hmem ih
  · intro hcc
    induction hcc with
    | nil => exact Decomp.nil
    | cons hmem _ ih =>
      exact Decomp.cons (h _ hmem) ((contains_fromPatterns pats _).mpr (Or.inr hmem)) ih

/-- C5: over non-empty towel patterns, `can_make(design)` holds exactly when
the design is a concatenation of listed patterns (the empty design is
accepted as the empty concatenation), and `part1` counts exactly the designs
`can_make` accepts. -/
theorem c5_can_make_iff_concatenation (patterns designs : List Pattern)
    (h : ∀ w ∈ patterns, w ≠ []) :
    (∀ design, (PatternTrie.fromPatterns patterns).can_make design = true ↔
      Concat patterns design) ∧
    day19_part1_count patterns designs =
      designs.countP (fun design => (PatternTrie.fromPatterns patterns).can_make design) := by
  constructor
  · intro design
    rw [can_make_iff_decomp _ (contains_nil_fromPatterns patterns)]
    exact decomp_iff_concat patterns h design
  · rw [day19_part1_count, List.countP_eq_length_filter]

/-- C5 witness. -/
theorem c5_witness :
    (∀ w ∈ ([[Stripe.White], [Stripe.Black, Stripe.Red]] : List Pattern), w ≠ []) ∧
    ((PatternTrie.fromPatterns [[Stripe.White], [Stripe.Black, Stripe.Red]]).can_make
        [Stripe.White, Stripe.Black, Stripe.Red] = true ↔
      Concat [[Stripe.White], [Stripe.Black, Stripe.Red]]
        [Stripe.White, Stripe.Black, Stripe.Red]) :=
  ⟨by decide,
   (c5_can_make_iff_concatenation [[Stripe.White], [Stripe.Black, Stripe.Red]] []
      (by decide)).1 _⟩

/-- C8: on every trie built by `PatternTrie::from` and every pattern,
`can_make` holds exactly when the memoized `ways_to_make` count is positive. -/
theorem c8_can_make_iff_ways_pos (pats : List Pattern) (p : Pattern) :
    (PatternTrie.fromPatterns pats).can_make p = true ↔
      0 < (PatternTrie.fromPatterns pats).ways_to_make p := by
  rw [ways_to_make_eq_ways, can_make_iff_decomp _ (contains_nil_fromPatterns pats)]
  exact (ways_pos_iff_decomp _ (contains_nil_fromPatterns pats) p).symm

/-- Membership in `boundsFinset` is coordinate-wise boundedness. -/
theorem mem_boundsFinset {b : Bounds} {vp : ValidPosition} :
    vp ∈ boundsFinset b ↔ vp.x < b.fst ∧ vp.y < b.snd := by
  unfold boundsFinset
  rw [Finset.mem_map]
  constructor
  · rintro ⟨⟨x, y⟩, hxy, rfl⟩
    rw [Finset.mem_product, Finset.mem_range, Finset.mem_range] at hxy
    exact hxy
  · intro h
    refine ⟨(vp.x, vp.y), ?_, rfl⟩
    rw [Finset.mem_product, Finset.mem_range, Finset.mem_range]
    exact h

/-- `boundsFinset` has exactly `bounds.0 * bounds.1` positions. -/
theorem card_boundsFinset (b : Bounds) : (boundsFinset b).card = b.fst * b.snd := by
  unfold boundsFinset
  rw [Finset.card_map, Finset.card_product, Finset.card_range, Finset.card_range]

/-- Valid neighbours are inside the bounds. -/
theorem valid_neighbours_subset {p : ValidPosition} {b : Bounds} {q : ValidPosition}
    (h : q ∈ p.valid_neighbours b) : q.x < b.fst ∧ q.y < b.snd := by
  unfold ValidPosition.valid_neighbours Position.valid_neighbours at h
  rw [List.mem_filterMap] at h
  obtain ⟨pos, _, hin⟩ := h
  have hsome := in_bounds_some hin
  exact ⟨hsome.1, hsome.2.1⟩

/-- Membership in the queue-push list of the flood fill. -/
theorem mem_regionNeighbours {α : Type} [Inhabited α] [DecidableEq α] {g : Grid α}
    {target : α} {p q : ValidPosition} :
    q ∈ g.regionNeighbours target p ↔
      q ∈ p.valid_neighbours g.bounds ∧ g.value q = target := by
  unfold Grid.regionNeighbours
  rw [List.mem_filter]
  simp

/-- At most four positions are pushed per visited cell. -/
theorem regionNeighbours_length_le {α : Type} [Inhabited α] [DecidableEq α] (g : Grid α)
    (target : α) (p : ValidPosition) : (g.regionNeighbours target p).length ≤ 4 := by
  unfold Grid.regionNeighbours ValidPosition.valid_neighbours Position.valid_neighbours
  calc (((ValidPosition.toPosition p).neighbours.filterMap
          (fun neib => neib.in_bounds g.bounds)).filter _).length
      ≤ ((ValidPosition.toPosition p).neighbours.filterMap
          (fun neib => neib.in_bounds g.bounds)).length := List.length_filter_le _ _
    _ ≤ (ValidPosition.toPosition p).neighbours.length := List.length_filterMap_le _ _
    _ = 4 := rfl

/-- Everything the flood-fill loop returns satisfies any property that holds on
the initial visited set and queue and is preserved by same-value steps. -/
theorem bfsAux_sound {α : Type} [Inhabited α] [DecidableEq α] (g : Grid α) (target : α)
    (P : ValidPosition → Prop)
    (hP : ∀ a b, P a → g.sameValueStep target a b → P b) :
    ∀ (fuel : ℕ) (visited : Finset ValidPosition) (queue : List ValidPosition),
      (∀ v ∈ visited, P v) → (∀ q ∈ queue, P q) →
      ∀ v ∈ g.bfsAux target fuel visited queue, P v := by
  intro fuel
  induction fuel with
  | zero =>
    intro visited queue hvis _ v hv
    exact hvis v hv
  | succ fuel ih =>
    intro visited queue hvis hq
    cases queue with
    | nil => exact hvis
    | cons pnext rest =>
      have hred : g.bfsAux target (fuel + 1) visited (pnext :: rest) =
          if pnext ∈ visited then g.bfsAux target fuel visited rest
          else g.bfsAux target fuel (insert pnext visited)
            (rest ++ g.regionNeighbours target pnext) := rfl
      rw [hred]
      by_cases hmem : pnext ∈ visited
      · rw [if_pos hmem]
        exact ih visited rest hvis (fun q hq' => hq q (List.mem_cons_of_mem _ hq'))
      · rw [if_neg hmem]
        apply ih
        · intro v hv
          rcases Finset.mem_insert.mp hv with rfl | hv
          · exact hq v (List.mem_cons_self _ _)
          · exact hvis v hv
        · intro q hq'
          rcases List.mem_append.mp hq' with hq' | hq'
          · exact hq q (List.mem_cons_of_mem _ hq')
          · have hstep := mem_regionNeighbours.mp hq'
            exact hP pnext q (hq pnext (List.mem_cons_self _ _)) hstep

/-- With enough fuel, in-bounds queue entries, and a visited set whose
same-value successors all sit in `visited ∪ queue`, the flood-fill loop
returns a superset of `visited` and `queue` that is closed under same-value
steps. -/
theorem bfsAux_spec {α : Type} [Inhabited α] [DecidableEq α] (g : Grid α) (target : α) :
    ∀ (fuel : ℕ) (visited : Finset ValidPosition) (queue : List ValidPosition),
      5 * ((boundsFinset g.bounds) \ visited).card + queue.length ≤ fuel →
      (∀ q ∈ queue, q ∈ boundsFinset g.bounds) →
      (∀ v ∈ visited, ∀ q, g.sameValueStep target v q → q ∈ visited ∨ q ∈ queue) →
      (∀ v ∈ visited, v ∈ g.bfsAux target fuel visited queue) ∧
      (∀ q ∈ queue, q ∈ g.bfsAux target fuel visited queue) ∧
      (∀ v ∈ g.bfsAux target fuel visited queue, ∀ q, g.sameValueStep target v q →
        q ∈ g.bfsAux target fuel visited queue) := by
  intro fuel
  induction fuel with
  | zero =>
    intro visited queue hsize hq hclosed
    obtain rfl : queue = [] := List.eq_nil_of_length_eq_zero (by omega)
    refine ⟨fun v hv => hv, fun q hq' => absurd hq' (List.not_mem_nil q), ?_⟩
    intro v hv q hstep
    rcases hclosed v hv q hstep with h | h
    · exact h
    · exact absurd h (List.not_mem_nil q)
  | succ fuel ih =>
    intro visited queue hsize hq hclosed
    cases queue with
    | nil =>
      refine ⟨fun v hv => hv, fun q hq' => absurd hq' (List.not_mem_nil q), ?_⟩
      intro v hv q hstep
      rcases hclosed v hv q hstep with h | h
      · exact h
      · exact absurd h (List.not_mem_nil q)
    | cons pnext rest =>
      have hred : g.bfsAux target (fuel + 1) visited (pnext :: rest) =
          if pnext ∈ visited then g.bfsAux target fuel visited rest
          else g.bfsAux target fuel (insert pnext visited)
            (rest ++ g.regionNeighbours target pnext) := rfl
      rw [hred]
      by_cases hmem : pnext ∈ visited
      · rw [if_pos hmem]
        have hrec := ih visited rest (by simp at hsize ⊢; omega)
          (fun q hq' => hq q (List.mem_cons_of_mem _ hq'))
          (by
            intro v hv q hstep
            rcases hclosed v hv q hstep with h | h
            · exact Or.inl h
            · rcases List.mem_cons.mp h with rfl | h
              · exact Or.inl hmem
              · exact Or.inr h)
        refine ⟨hrec.1, ?_, hrec.2.2⟩
        intro q hq'
        rcases List.mem_cons.mp hq' with rfl | hq'
        · exact hrec.1 q hmem
        · exact hrec.2.1 q hq'
      · rw [if_neg hmem]
        have hpB : pnext ∈ boundsFinset g.bounds := hq pnext (List.mem_cons_self _ _)
        have hpdiff : pnext ∈ boundsFinset g.bounds \ visited :=
          Finset.mem_sdiff.mpr ⟨hpB, hmem⟩
        have hcard : (boundsFinset g.bounds \ insert pnext visited).card =
            (boundsFinset g.bounds \ visited).card - 1 := by
          rw [Finset.sdiff_insert, Finset.card_erase_of_mem hpdiff]
        have hcardpos : 1 ≤ (boundsFinset g.bounds \ visited).card :=
          Finset.card_pos.mpr ⟨pnext, hpdiff⟩
        have hpush := regionNeighbours_length_le g target pnext
        have hrec := ih (insert pnext visited) (rest ++ g.regionNeighbours target pnext)
          (by
            rw [List.length_append, hcard]
            simp only [List.length_cons] at hsize
            omega)
          (by
            intro q hq'
            rcases List.mem_append.mp hq' with hq' | hq'
            · exact hq q (List.mem_cons_of_mem _ hq')
            · have hstep := mem_regionNeighbours.mp hq'
              have hb := valid_neighbours_subset hstep.1
              exact mem_boundsFinset.mpr hb)
          (by
            intro v hv q hstep
            rcases Finset.mem_insert.mp hv with rfl | hv
            · refine Or.inr (List.mem_append.mpr (Or.inr ?_))
              exact mem_regionNeighbours.mpr ⟨hstep.1, hstep.2⟩
            · rcases hclosed v hv q hstep with h | h
              · exact Or.inl (Finset.mem_insert_of_mem h)
              · rcases List.mem_cons.mp h with rfl | h
                · exact Or.inl (Finset.mem_insert_self q visited)
                · exact Or.inr (List.mem_append.mpr (Or.inl h)))
        refine ⟨?_, ?_, hrec.2.2⟩
        · intro v hv
          exact hrec.1 v (Finset.mem_insert_of_mem hv)
        · intro q hq'
          rcases List.mem_cons.mp hq' with rfl | hq'
          · exact hrec.1 q (Finset.mem_insert_self q visited)
          · exact hrec.2.1 q (List.mem_append.mpr (Or.inl hq'))

/-- Reached cells hold the value at the start cell. -/
theorem reaches_value {α : Type} [Inhabited α] (g : Grid α) (pos q : ValidPosition)
    (h : g.Reaches pos q) : g.value q = g.value pos := by
  induction h with
  | refl => rfl
  | tail _ hstep _ => exact hstep.2

/-- C1: on every well-formed grid and in-bounds starting position,
`contiguous_region` returns exactly the positions reachable from the start by
repeated in-bounds 4-neighbour steps through cells holding the start's value;
in particular it contains the start, and every returned position holds that
value. -/
theorem c1_contiguous_region_spec {α : Type} [Inhabited α] [DecidableEq α]
    (g : Grid α) (pos : ValidPosition)
    (hrows : ∀ row ∈ g.data, row.length = g.bounds.fst)
    (hheight : g.data.length = g.bounds.snd)
    (hpos : pos.x < g.bounds.fst ∧ pos.y < g.bounds.snd) :
    (∀ q, q ∈ g.contiguous_region pos ↔ g.Reaches pos q) ∧
    pos ∈ g.contiguous_region pos ∧
    (∀ q ∈ g.contiguous_region pos, g.value q = g.value pos) := by
  have hspec := bfsAux_spec g (g.value pos) (5 * (g.bounds.fst * g.bounds.snd) + 1) ∅ [pos]
    (by rw [Finset.sdiff_empty, card_boundsFinset]; simp)
    (by
      intro q hq
      rw [List.mem_singleton] at hq
      subst hq
      exact mem_boundsFinset.mpr hpos)
    (by intro v hv; exact absurd hv (Finset.not_mem_empty v))
  obtain ⟨_, h2, h3⟩ := hspec
  have hposmem : pos ∈ g.contiguous_region pos := h2 pos (List.mem_singleton_self pos)
  have hsound := bfsAux_sound g (g.value pos) (g.Reaches pos)
    (fun a b ha hab => Relation.ReflTransGen.tail ha hab)
    (5 * (g.bounds.fst * g.bounds.snd) + 1) ∅ [pos]
    (by intro v hv; exact absurd hv (Finset.not_mem_empty v))
    (by
      intro q hq
      rw [List.mem_singleton] at hq
      subst hq
      exact Relation.ReflTransGen.refl)
  refine ⟨?_, hposmem, ?_⟩
  · intro q
    constructor
    · intro hmem
      exact hsound q hmem
    · intro hreach
      induction hreach with
      | refl => exact hposmem
      | tail _ hstep ih => exact h3 _ ih _ hstep
  · intro q hq
    exact reaches_value g pos q (hsound q hq)

/-- C1 witness. -/
theorem c1_witness :
    (∀ row ∈ (gridFromLines (fun c => c) ["ab"]).data,
        row.length = (gridFromLines (fun c => c) ["ab"]).bounds.fst) ∧
    (gridFromLines (fun c => c) ["ab"]).data.length =
      (gridFromLines (fun c => c) ["ab"]).bounds.snd ∧
    (⟨0, 0⟩ : ValidPosition) ∈
      (gridFromLines (fun c => c) ["ab"]).contiguous_region ⟨0, 0⟩ :=
  ⟨by decide, by decide,
   (c1_contiguous_region_spec (gridFromLines (fun c => c) ["ab"]) ⟨0, 0⟩
      (by decide) (by decide) (by decide)).2.1⟩

/-- C7 witness. -/
theorem c7_witness :
    (([((0 : ℤ), (0 : ℤ), (0 : ℤ), (0 : ℤ)), (1, 2, 3, 4)] : List Seq4).Perm
      [(1, 2, 3, 4), (0, 0, 0, 0)]) ∧
    day22_part2_over [] [((0 : ℤ), (0 : ℤ), (0 : ℤ), (0 : ℤ)), (1, 2, 3, 4)] =
      day22_part2_over [] [(1, 2, 3, 4), (0, 0, 0, 0)] :=
  ⟨List.Perm.swap _ _ _, c7_hash_order_determinism.1 [] _ _ (List.Perm.swap _ _ _)⟩

end AoC
